import Mathlib

/-!
Verification of the connected-component counter (src/main.cpp together with
the text_parsing.h and numeric_id.h headers it includes).

The program's core is fully `constexpr` C++: a whitespace tokenizer over a
flat string, an arena-allocated adjacency-list graph, a symmetrization pass
(`double_up_edges`) and a recursive depth-first component counter
(`count_connected`).  This file gives a shallow embedding of those functions
over `List Char` / `Nat` / `Int` and proves the specified properties.

Modelling conventions:
* Texts are `List Char`; a `std::string_view` cursor is the remaining list.
* `size_t` arithmetic wraps modulo `2 ^ 64`; this matters only in
  `view_to_int` (`rval = rval * 10 + c - '0'`), where the reduction is
  explicit.  The `int` component counter is modelled by `Int`: its values
  stay in `[-1, number of nodes]`, and a node-count large enough to overflow
  a 32-bit `int` could not instantiate the source's `std::array` anyway.
* `std::array<..>::at` is a bounds-checked access whose failure throws and
  aborts the `constexpr` evaluation; fallible operations therefore return
  `Option`, with `none` for the fatal out-of-range path.
* The edge arena stores the allocated prefix of `edge_memory`
  (`next_available = edge_memory.length`) next to its capacity `max_edges`.
  Slots in `[next_available, max_edges)` hold default-constructed records in
  the source; reading one yields a `node_id_t` whose `.value()` call throws,
  so no non-faulting source path observes them and they are not materialised.
* The adjacency loops of the source follow `next_edge` links until
  `nullopt`.  In the embedding those walks take explicit fuel; every link
  produced by `add_edge` points to a strictly earlier arena slot, so fuel
  `edge_memory.length` is proved sufficient, and the recursion of
  `mark_connected` takes fuel bounded by the number of unvisited nodes plus
  one, likewise proved sufficient.  A `none` from exhausted fuel corresponds
  to a walk the source could only reach from a malformed arena.
-/

set_option maxRecDepth 2048

namespace ConnComp

/-! ## Scanner (text_parsing.h) -/

/-- Whitespace, exactly as tested by `read_non_whitespace` /
`read_whitespace`: a space or a newline. -/
def is_ws (c : Char) : Bool := c = ' ' || c = '\n'

/-- `read_non_whitespace`: `read_generic` with the not-whitespace criterion.
Returns the maximal all-non-whitespace front of the cursor together with the
remaining cursor. -/
def read_non_whitespace (input : List Char) : List Char × List Char :=
  (input.takeWhile (fun c => !is_ws c), input.dropWhile (fun c => !is_ws c))

/-- `read_whitespace`: `read_generic` with the whitespace criterion. -/
def read_whitespace (input : List Char) : List Char × List Char :=
  (input.takeWhile is_ws, input.dropWhile is_ws)

/-- The `size_t` modulus. -/
def u64 : Nat := 2 ^ 64

/-- `view_to_int`: folds `rval = rval * 10 + c - '0'` over the characters in
`size_t` arithmetic, i.e. modulo `2 ^ 64` (`'0'.toNat = 48`). -/
def view_to_int (input : List Char) : Nat :=
  input.foldl (fun rval c => (rval * 10 + c.toNat + (u64 - 48)) % u64) 0

/-- `read_int`: read a token, skip the following whitespace run, convert the
token.  Returns the value and the advanced cursor. -/
def read_int (input : List Char) : Nat × List Char :=
  let tok := read_non_whitespace input
  let ws := read_whitespace tok.2
  (view_to_int tok.1, ws.2)

/-- `read_int_v`: value-only wrapper of `read_int` (the source copies the
view, so the caller's cursor is untouched). -/
def read_int_v (input : List Char) : Nat :=
  (read_int input).1

/-- Loop body state of `count_words`: whether the previous character was
part of a word, and the count so far. -/
def count_words_loop : Bool → Nat → List Char → Nat
  | _, acc, [] => acc
  | currently_in_a_word, acc, c :: cs =>
    let c_is_whitespace := is_ws c
    count_words_loop (!c_is_whitespace)
      (if !c_is_whitespace && !currently_in_a_word then acc + 1 else acc) cs

/-- `count_words`: number of maximal non-whitespace runs in the text.  The
source accumulates in an `int`; the count is non-negative and bounded by the
text length, so `Nat` is faithful. -/
def count_words (input : List Char) : Nat :=
  count_words_loop false 0 input

/-! ## Graph representation (main.cpp) -/

/-- `edge_t`: destination node and optional next edge of the source node's
list.  `dst_node` is a `node_id_t`; every record the program allocates
carries a concrete id (a defaulted id would fault on first use), so the
payload is a `Nat`. -/
structure edge_t where
  dst_node : Nat
  next_edge : Option Nat
deriving DecidableEq

/-- `edge_storage_t<max_edges>`: the arena.  `edge_memory` is the allocated
prefix; `next_available = edge_memory.length`. -/
structure edge_storage_t where
  max_edges : Nat
  edge_memory : List edge_t
deriving DecidableEq

/-- `alloc_edge`: write a record at `next_available` and advance it.  The
`edge_memory.at(candidate)` access is in range exactly when
`next_available < max_edges`; otherwise the access throws (fatal), modelled
as `none`. -/
def edge_storage_t.alloc_edge (s : edge_storage_t) (node : Nat)
    (next : Option Nat) : Option (edge_storage_t × Nat) :=
  if s.edge_memory.length < s.max_edges then
    some ({ s with edge_memory := s.edge_memory ++ [⟨node, next⟩] },
          s.edge_memory.length)
  else
    none

/-- `get_edge`: bounds-checked read of an arena record.  Indices at or past
`next_available` are fatal: below `max_edges` the source returns a
default-constructed record whose `dst_node.value()` then throws on every
consuming path, and from `max_edges` on `at` itself throws. -/
def edge_storage_t.get_edge (s : edge_storage_t) (index : Nat) :
    Option edge_t :=
  s.edge_memory[index]?

/-- `node_t`: stored id and head of the outgoing-edge list.  Default
construction leaves both absent. -/
structure node_t where
  node_id : Option Nat := none
  edge_begin_id : Option Nat := none
deriving DecidableEq

/-- `graph_raw<max_nodes, max_edges>`: a node array of length `max_nodes`
(the template parameter) of which the first `used_nodes` are initialised,
plus the edge arena. -/
structure graph_raw where
  max_nodes : Nat
  used_nodes : Nat
  nodes : List node_t
  edges : edge_storage_t
deriving DecidableEq

/-- The `graph_raw(used_nodes)` constructor: default storage, then the nodes
from `begin()` to `begin() + used_nodes` get their index as id.  Iterating
past the array (`used_nodes > max_nodes`) is out-of-bounds, hence `none`. -/
def graph_raw.init (max_nodes max_edges used_nodes : Nat) :
    Option graph_raw :=
  if used_nodes ≤ max_nodes then
    some { max_nodes := max_nodes
           used_nodes := used_nodes
           nodes := (List.range max_nodes).map fun i =>
             if i < used_nodes then { node_id := some i } else {}
           edges := { max_edges := max_edges, edge_memory := [] } }
  else
    none

/-- `add_edge`: allocate a record whose `next` is the source node's current
head, then point the head at the new record.  `nodes().at(src)` checks
`src < max_nodes`. -/
def graph_raw.add_edge (g : graph_raw) (src_node dst_node : Nat) :
    Option graph_raw :=
  match g.nodes[src_node]? with
  | none => none
  | some node =>
    match g.edges.alloc_edge dst_node node.edge_begin_id with
    | none => none
    | some (es, new_edge_idx) =>
      some { g with
             nodes := g.nodes.set src_node
               { node with edge_begin_id := some new_edge_idx }
             edges := es }

/-- `get_num_nodes`. -/
def graph_raw.get_num_nodes (g : graph_raw) : Nat :=
  g.used_nodes

/-- `first_edge`: head of a node's adjacency list (`at`-checked). -/
def graph_raw.first_edge (g : graph_raw) (node_idx : Nat) :
    Option (Option Nat) :=
  (g.nodes[node_idx]?).map node_t.edge_begin_id

/-- `next_edge` of an arena record. -/
def graph_raw.next_edge (g : graph_raw) (edge_idx : Nat) :
    Option (Option Nat) :=
  (g.edges.get_edge edge_idx).map edge_t.next_edge

/-- `dst_node` of an arena record. -/
def graph_raw.dst_node (g : graph_raw) (edge_idx : Nat) : Option Nat :=
  (g.edges.get_edge edge_idx).map edge_t.dst_node

/-- The destinations seen by the source's adjacency loop
(`for (e = first; e.has_value(); e = next_edge(e))`), in visit order.  The
loop itself carries no bound; the fuel argument is the embedding's
termination device and `edge_memory.length` is always enough fuel on arenas
built by `add_edge` (proved below), since every `next_edge` link points to a
strictly earlier slot. -/
def graph_raw.adj_list (g : graph_raw) : Nat → Option Nat → Option (List Nat)
  | _, none => some []
  | 0, some _ => none
  | fuel + 1, some eid =>
    match g.edges.get_edge eid with
    | none => none
    | some e =>
      match g.adj_list fuel e.next_edge with
      | none => none
      | some rest => some (e.dst_node :: rest)

/-! ## Builder and symmetrization (main.cpp) -/

/-- `max_graph_nodes = read_int_v(graph_text)`. -/
def max_graph_nodes (text : List Char) : Nat :=
  read_int_v text

/-- `max_graph_edges = count_words(graph_text)`: the word count of the whole
text, node-count token included and with no division. -/
def max_graph_edges (text : List Char) : Nat :=
  count_words text

/-- The `while (text.size() > 0)` loop of `read_graph`: read a source and a
destination and insert the edge.  The source loop terminates because
`read_int` strictly shrinks a non-empty cursor; the embedding makes that
measure explicit as fuel (one unit per iteration, `text.length` is always
enough and is what `read_graph` passes). -/
def read_graph_loop : Nat → graph_raw → List Char → Option graph_raw
  | _, g, [] => some g
  | 0, _, _ :: _ => none
  | fuel + 1, g, c :: cs =>
    let s := read_int (c :: cs)
    let d := read_int s.2
    match g.add_edge s.1 d.1 with
    | none => none
    | some g2 => read_graph_loop fuel g2 d.2

/-- `read_graph`: size the graph from the text (`max_graph_nodes`,
`max_graph_edges` are the template arguments of `graph_t`, computed from the
same global text the function parses), read the node count, then insert one
edge per remaining token pair. -/
def read_graph (text : List Char) : Option graph_raw :=
  let n := read_int text
  match graph_raw.init (max_graph_nodes text) (max_graph_edges text) n.1 with
  | none => none
  | some g => read_graph_loop text.length g n.2

/-- Inner loop of `double_up_edges` for one source node `i`: for every
destination in `i`'s adjacency list insert `(i, dst)` and `(dst, i)` into
the new graph. -/
def add_two_edges (i : Nat) : List Nat → graph_raw → Option graph_raw
  | [], ng => some ng
  | d :: rest, ng =>
    match ng.add_edge i d with
    | none => none
    | some n1 =>
      match n1.add_edge d i with
      | none => none
      | some n2 => add_two_edges i rest n2

/-- Outer loop of `double_up_edges` over the source nodes. -/
def double_up_loop (g : graph_raw) : List Nat → graph_raw → Option graph_raw
  | [], ng => some ng
  | i :: rest, ng =>
    match g.first_edge i with
    | none => none
    | some head =>
      match g.adj_list g.edges.edge_memory.length head with
      | none => none
      | some dsts =>
        match add_two_edges i dsts ng with
        | none => none
        | some ng2 => double_up_loop g rest ng2

/-- `double_up_edges`: build a fresh `graph_t` (same template parameters,
same `used_nodes`, empty arena) and insert both directions of every edge of
`graph`.  The argument is taken by value (`const graph_t graph`) and only
read. -/
def double_up_edges (g : graph_raw) : Option graph_raw :=
  match graph_raw.init g.max_nodes g.edges.max_edges g.get_num_nodes with
  | none => none
  | some ng => double_up_loop g (List.range g.get_num_nodes) ng

/-! ## Component counting (main.cpp) -/

/-- The neighbour loop of `mark_connected` over the destinations of the
node's adjacency list: skip labelled neighbours (`visited.at(dst) != -1`),
enter unlabelled ones through `step` (the recursive `mark_connected` call,
closed over the graph and the color). -/
def mark_list (step : Nat → List Int → Option (List Int)) :
    List Nat → List Int → Option (List Int)
  | [], visited => some visited
  | d :: rest, visited =>
    match visited[d]? with
    | none => none
    | some v =>
      if v = -1 then
        match step d visited with
        | none => none
        | some visited2 => mark_list step rest visited2
      else
        mark_list step rest visited

/-- `mark_connected`: label `node_idx` with `color`, then recurse into every
adjacent node still labelled `-1`.  The fuel bounds the recursion depth; the
source recursion terminates because each nested call claims a node that was
unvisited, so depth never exceeds the number of `-1` entries (proved below,
where the fuel `count_connected` passes is shown sufficient). -/
def mark_connected (g : graph_raw) :
    Nat → Nat → List Int → Int → Option (List Int)
  | 0, _, _, _ => none
  | fuel + 1, node_idx, visited, color =>
    match visited[node_idx]? with
    | none => none
    | some _ =>
      let visited1 := visited.set node_idx color
      match g.first_edge node_idx with
      | none => none
      | some head =>
        match g.adj_list g.edges.edge_memory.length head with
        | none => none
        | some dsts =>
          mark_list (fun d vis => mark_connected g fuel d vis color)
            dsts visited1

/-- The scan loop of `count_connected` over node indices: a node still
labelled `-1` seeds a new color. -/
def count_loop (g : graph_raw) :
    List Nat → List Int → Int → Option Int
  | [], _, color => some color
  | i :: rest, visited, color =>
    match visited[i]? with
    | none => none
    | some v =>
      if v = -1 then
        match mark_connected g (g.max_nodes + 1) i visited color with
        | none => none
        | some visited2 => count_loop g rest visited2 (color + 1)
      else
        count_loop g rest visited color

/-- `count_connected`: all `max_graph_nodes` labels start at `-1`; each
still-unvisited node in id order seeds `mark_connected` with the next color;
the final color counter is returned. -/
def count_connected (g : graph_raw) : Option Int :=
  count_loop g (List.range g.get_num_nodes)
    (List.replicate g.max_nodes (-1)) 0

/-- The program's value pipeline (the `constexpr` globals of `main.cpp`):
`graph = read_graph(graph_text)`, `bidir_graph = double_up_edges(graph)`,
`connected_subgraphs = count_connected(bidir_graph)`. -/
def connected_subgraphs (text : List Char) : Option Int :=
  match read_graph text with
  | none => none
  | some graph =>
    match double_up_edges graph with
    | none => none
    | some bidir_graph => count_connected bidir_graph

/-! ## Input well-formedness

The observable contract quantifies over well-formed texts: a first integer
`N` followed by an even number of integers forming the `(source,
destination)` pairs, all below `N`.  `tokens` splits a text into its maximal
non-whitespace runs (the same splitting `count_words` counts and `read_int`
consumes one token at a time), and `dec_val` is the pure decimal value of a
token. -/

/-- Accumulator loop of `tokens`: `acc` holds the reversed characters of the
word currently being scanned (empty when between words). -/
def tokens_loop : List Char → List Char → List (List Char)
  | acc, [] => if acc.isEmpty then [] else [acc.reverse]
  | acc, c :: cs =>
    if is_ws c then
      if acc.isEmpty then tokens_loop [] cs
      else acc.reverse :: tokens_loop [] cs
    else
      tokens_loop (c :: acc) cs

/-- The maximal non-whitespace runs of a text, in order. -/
def tokens (text : List Char) : List (List Char) :=
  tokens_loop [] text

/-- Pure decimal value of a token (no `size_t` wrap-around). -/
def dec_val (w : List Char) : Nat :=
  w.foldl (fun a c => a * 10 + (c.toNat - 48)) 0

/-- A token that denotes a machine-representable integer: non-empty, all
decimal digits, value below `2 ^ 64`. -/
def good_word (w : List Char) : Prop :=
  w ≠ [] ∧ (∀ c ∈ w, 48 ≤ c.toNat ∧ c.toNat ≤ 57) ∧ dec_val w < u64

/-- The token-value list an edge-pair list denotes. -/
def flat_pairs : List (Nat × Nat) → List Nat
  | [] => []
  | p :: rest => p.1 :: p.2 :: flat_pairs rest

/-- Well-formed input text describing `N` nodes and the given edge pairs:
it starts with a non-whitespace character (a leading separator would make
`read_int` return 0 for an empty token), every token is a representable
integer, the token values are `N` followed by the flattened pairs, and both
endpoints of every pair are below `N`. -/
def well_formed (text : List Char) (N : Nat) (pairs : List (Nat × Nat)) :
    Prop :=
  text ≠ [] ∧
  (∀ c ∈ text.take 1, is_ws c = false) ∧
  (∀ w ∈ tokens text, good_word w) ∧
  (tokens text).map dec_val = N :: flat_pairs pairs ∧
  (∀ p ∈ pairs, p.1 < N ∧ p.2 < N)

instance good_word_decidable (w : List Char) : Decidable (good_word w) := by
  unfold good_word
  infer_instance

instance well_formed_decidable (text : List Char) (N : Nat)
    (pairs : List (Nat × Nat)) : Decidable (well_formed text N pairs) := by
  unfold well_formed
  infer_instance

/-! ## Closed forms for the built graph

`read_graph` and `double_up_edges` only ever grow the structure through
`add_edge`; the state after inserting a pair list is captured in closed form
by `built_graph`, and the adjacency list a traversal observes by `adj_of`. -/

/-- Index of the last pair with source `s`, i.e. the arena slot holding the
head of `s`'s adjacency list after inserting `pairs` in order. -/
def last_idx : List (Nat × Nat) → Nat → Option Nat
  | [], _ => none
  | p :: rest, s =>
    match last_idx rest s with
    | some k => some (k + 1)
    | none => if p.1 = s then some 0 else none

/-- The arena contents after inserting `pairs` in order: slot `k` holds the
destination of the `k`-th pair and links to the previous pair with the same
source. -/
def edges_of (pairs : List (Nat × Nat)) : List edge_t :=
  (List.range pairs.length).map fun k =>
    { dst_node := (pairs.getD k (0, 0)).2
      next_edge := last_idx (pairs.take k) (pairs.getD k (0, 0)).1 }

/-- Closed form of the graph obtained from `graph_raw.init maxN maxE N`
followed by `add_edge` on each element of `pairs` in order. -/
def built_graph (maxN maxE N : Nat) (pairs : List (Nat × Nat)) : graph_raw :=
  { max_nodes := maxN
    used_nodes := N
    nodes := (List.range maxN).map fun i =>
      { node_id := if i < N then some i else none
        edge_begin_id := last_idx pairs i }
    edges := { max_edges := maxE, edge_memory := edges_of pairs } }

/-- The adjacency list of `s` after inserting `pairs` in order: the
destinations of the pairs with source `s`, most recent first (head
insertion reverses insertion order). -/
def adj_of (pairs : List (Nat × Nat)) (s : Nat) : List Nat :=
  ((pairs.filter fun p => p.1 == s).map Prod.snd).reverse

/-- The pair insertions `double_up_edges` performs for one source node. -/
def two_way (i : Nat) : List Nat → List (Nat × Nat)
  | [] => []
  | d :: rest => (i, d) :: (d, i) :: two_way i rest

/-- All pair insertions `double_up_edges` performs while scanning the given
node indices. -/
def dup_of (pairs : List (Nat × Nat)) : List Nat → List (Nat × Nat)
  | [] => []
  | i :: rest => two_way i (adj_of pairs i) ++ dup_of pairs rest

/-- The pure walk underlying `graph_raw.adj_list`: it reads only the arena
contents. -/
def walk (es : List edge_t) : Nat → Option Nat → Option (List Nat)
  | _, none => some []
  | 0, some _ => none
  | fuel + 1, some eid =>
    match es[eid]? with
    | none => none
    | some e =>
      match walk es fuel e.next_edge with
      | none => none
      | some rest => some (e.dst_node :: rest)

/-- Arena well-formedness: every stored link points to a strictly earlier
slot (heads of singly linked lists only ever point backwards, since
`alloc_edge` links each record to a previously allocated one). -/
def wf_store (es : List edge_t) : Prop :=
  ∀ (k : Nat) (e : edge_t), es[k]? = some e → ∀ j ∈ e.next_edge, j < k

/-- Total number of edges observed by traversing the adjacency lists of the
given nodes (the quantity of testable property 1 / claim C3). -/
def total_adj (g : graph_raw) : List Nat → Option Nat
  | [] => some 0
  | i :: rest =>
    match g.first_edge i with
    | none => none
    | some h =>
      match g.adj_list g.edges.edge_memory.length h with
      | none => none
      | some l =>
        match total_adj g rest with
        | none => none
        | some t => some (l.length + t)

/-- Number of edges reachable by traversing every node's adjacency list. -/
def edge_count_via_traversal (g : graph_raw) : Option Nat :=
  total_adj g (List.range g.get_num_nodes)

/-! ## The specification-side graph

Modelled from the spec's observable output contract: "the number of
connected components of the undirected closure of the described graph".
The described graph has nodes `0 .. N-1` and the parsed pairs as edges; its
undirected closure is the simple graph joining the endpoints of every pair
(self-loops and duplicate edges do not affect connectivity). -/

/-- The undirected closure of the described graph, as a Mathlib
`SimpleGraph` on `Fin N`. -/
def spec_graph (N : Nat) (pairs : List (Nat × Nat)) : SimpleGraph (Fin N) where
  Adj a b := a ≠ b ∧ ((a.val, b.val) ∈ pairs ∨ (b.val, a.val) ∈ pairs)
  symm := by
    intro a b h
    exact ⟨fun he => h.1 he.symm, h.2.symm⟩
  loopless := by
    intro a h
    exact h.1 rfl

instance spec_graph_adj_decidable (N : Nat) (pairs : List (Nat × Nat)) :
    DecidableRel (spec_graph N pairs).Adj := fun a b =>
  inferInstanceAs (Decidable (a ≠ b ∧ ((a.val, b.val) ∈ pairs ∨ (b.val, a.val) ∈ pairs)))

/-- The number of connected components of the undirected closure of the
described graph. -/
def number_of_components (N : Nat) (pairs : List (Nat × Nat)) : Nat :=
  Fintype.card (spec_graph N pairs).ConnectedComponent

/-! ## Reachability notions used in the proofs -/

/-- One undirected step along the adjacency function `A`. -/
def adj_step (A : Nat → List Nat) (x y : Nat) : Prop :=
  y ∈ A x

/-- Reachability along `A`. -/
def reaches (A : Nat → List Nat) (a b : Nat) : Prop :=
  Relation.ReflTransGen (adj_step A) a b

/-- Reachability along `A` restricted to steps that land on a node still
labelled `-1` in `v` (the territory a depth-first mark can claim). -/
def reach_through (A : Nat → List Nat) (v : List Int) (a b : Nat) : Prop :=
  Relation.ReflTransGen (fun x y => y ∈ A x ∧ v[y]? = some (-1)) a b

/-- The set of still-unvisited indices of a label array. -/
def unv (v : List Int) : Finset Nat :=
  (Finset.range v.length).filter fun i => v[i]? = some (-1)

/-- The adjacency interface `count_connected` sees: every node below `L`
has a head whose walk (with the fuel the source-model passes) succeeds and
yields `A i`. -/
def has_adj (g : graph_raw) (L : Nat) (A : Nat → List Nat) : Prop :=
  ∀ i, i < L →
    ∃ h, g.first_edge i = some h ∧
      g.adj_list g.edges.edge_memory.length h = some (A i)

/-! ## Basic evaluations (the concrete scenarios of the spec) -/

example : connected_subgraphs "4  0 1  2 3".toList = some 2 := by decide
example : connected_subgraphs "3  0 1  1 2".toList = some 1 := by decide
example : connected_subgraphs "5".toList = some 5 := by decide
example : connected_subgraphs "1  0 0".toList = some 1 := by decide
example : number_of_components 4 [(0, 1), (2, 3)] = 2 := by decide
example : number_of_components 3 [(0, 1), (1, 2)] = 1 := by decide
example : number_of_components 5 [] = 5 := by decide
example : number_of_components 1 [(0, 0)] = 1 := by decide

/-! ## Scanner lemmas -/

theorem length_dropWhile_le (p : Char → Bool) (l : List Char) :
    (l.dropWhile p).length ≤ l.length :=
  (List.dropWhile_sublist p).length_le

theorem head_dropWhile_false (p : Char → Bool) (l : List Char) :
    ∀ c ∈ (l.dropWhile p).take 1, p c = false := by
  induction l with
  | nil => simp
  | cons c cs ih =>
    by_cases h : p c
    · simpa [List.dropWhile_cons, h] using ih
    · simp [List.dropWhile_cons, h]

theorem tokens_ws_cons (d : Char) (ds : List Char) (hd : is_ws d = true) :
    tokens (d :: ds) = tokens ds := by
  simp [tokens, tokens_loop, hd]

theorem tokens_loop_acc (cs : List Char) :
    ∀ acc : List Char, acc ≠ [] →
      tokens_loop acc cs =
        (acc.reverse ++ cs.takeWhile fun d => !is_ws d) ::
          tokens (cs.dropWhile fun d => !is_ws d) := by
  induction cs with
  | nil =>
    intro acc h
    simp [tokens_loop, tokens, List.isEmpty_iff, h]
  | cons d ds ih =>
    intro acc h
    by_cases hd : is_ws d
    · rw [show tokens_loop acc (d :: ds) = acc.reverse :: tokens_loop [] ds by
        simp [tokens_loop, hd, List.isEmpty_iff, h]]
      rw [show (d :: ds).takeWhile (fun d => !is_ws d) = [] by
        simp [List.takeWhile_cons, hd]]
      rw [show (d :: ds).dropWhile (fun d => !is_ws d) = d :: ds by
        simp [List.dropWhile_cons, hd]]
      rw [tokens_ws_cons d ds hd]
      simp [tokens]
    · rw [show tokens_loop acc (d :: ds) = tokens_loop (d :: acc) ds by
        simp [tokens_loop, hd]]
      rw [ih (d :: acc) (by simp)]
      simp [List.takeWhile_cons, List.dropWhile_cons, hd]

theorem tokens_cons_of_not_ws (c : Char) (cs : List Char)
    (hc : is_ws c = false) :
    tokens (c :: cs) =
      (c :: cs.takeWhile fun d => !is_ws d) ::
        tokens (cs.dropWhile fun d => !is_ws d) := by
  have h := tokens_loop_acc cs [c] (by simp)
  simpa [tokens, tokens_loop, hc] using h

theorem tokens_dropWhile_ws (l : List Char) :
    tokens (l.dropWhile is_ws) = tokens l := by
  induction l with
  | nil => simp
  | cons c cs ih =>
    by_cases h : is_ws c
    · rw [show (c :: cs).dropWhile is_ws = cs.dropWhile is_ws by
        simp [List.dropWhile_cons, h]]
      rw [ih, tokens_ws_cons c cs h]
    · simp [List.dropWhile_cons, h]

theorem tokens_eq_nil_iff (l : List Char)
    (hl : ∀ c ∈ l.take 1, is_ws c = false) : tokens l = [] ↔ l = [] := by
  cases l with
  | nil => simp [tokens, tokens_loop]
  | cons c cs =>
    have hc : is_ws c = false := hl c (by simp)
    simp [tokens_cons_of_not_ws c cs hc]

theorem read_int_cons (c : Char) (cs : List Char) (hc : is_ws c = false) :
    read_int (c :: cs) =
      (view_to_int (c :: cs.takeWhile fun d => !is_ws d),
        (cs.dropWhile fun d => !is_ws d).dropWhile is_ws) := by
  simp [read_int, read_non_whitespace, read_whitespace, List.takeWhile_cons,
    List.dropWhile_cons, hc]

/-- Everything the graph-builder loop needs to know about one `read_int`
call on a cursor positioned at the start of a token: it returns the value of
the first token, the new cursor carries exactly the remaining tokens, sits
at the start of the next token, and is strictly shorter. -/
theorem read_int_cursor_step (cur : List Char) (hne : cur ≠ [])
    (hhead : ∀ x ∈ cur.take 1, is_ws x = false) :
    ∃ w r, read_int cur = (view_to_int w, r) ∧
      tokens cur = w :: tokens r ∧
      (∀ x ∈ r.take 1, is_ws x = false) ∧
      r.length < cur.length ∧
      (r = [] ↔ tokens r = []) := by
  cases cur with
  | nil => exact absurd rfl hne
  | cons c cs =>
    have hc : is_ws c = false := hhead c (by simp)
    refine ⟨c :: cs.takeWhile fun d => !is_ws d,
      (cs.dropWhile fun d => !is_ws d).dropWhile is_ws,
      read_int_cons c cs hc, ?_, ?_, ?_, ?_⟩
    · rw [tokens_cons_of_not_ws c cs hc,
        tokens_dropWhile_ws (cs.dropWhile fun d => !is_ws d)]
    · exact head_dropWhile_false is_ws (cs.dropWhile fun d => !is_ws d)
    · have h1 := length_dropWhile_le is_ws (cs.dropWhile fun d => !is_ws d)
      have h2 := length_dropWhile_le (fun d => !is_ws d) cs
      simp only [List.length_cons]
      omega
    · exact (tokens_eq_nil_iff _
        (head_dropWhile_false is_ws (cs.dropWhile fun d => !is_ws d))).symm

theorem dec_val_foldl_mono (w : List Char) :
    ∀ a : Nat, a ≤ w.foldl (fun a c => a * 10 + (c.toNat - 48)) a := by
  induction w with
  | nil => intro a; exact Nat.le_refl a
  | cons c ws ih =>
    intro a
    have h1 : a ≤ a * 10 + (c.toNat - 48) := by
      have : a * 1 ≤ a * 10 := Nat.mul_le_mul_left a (by omega)
      omega
    exact Nat.le_trans h1 (ih (a * 10 + (c.toNat - 48)))

theorem view_to_int_foldl_eq (w : List Char) :
    ∀ a : Nat, (∀ c ∈ w, 48 ≤ c.toNat) →
      w.foldl (fun a c => a * 10 + (c.toNat - 48)) a < u64 →
      w.foldl (fun rval c => (rval * 10 + c.toNat + (u64 - 48)) % u64) a =
        w.foldl (fun a c => a * 10 + (c.toNat - 48)) a := by
  induction w with
  | nil => intro a _ _; simp
  | cons c ws ih =>
    intro a hdig hlt
    have hc : 48 ≤ c.toNat := hdig c (by simp)
    have hstep : (a * 10 + c.toNat + (u64 - 48)) % u64 =
        a * 10 + (c.toNat - 48) := by
      have he : a * 10 + c.toNat + (u64 - 48) =
          (a * 10 + (c.toNat - 48)) + u64 := by
        have : (48 : Nat) ≤ u64 := by norm_num [u64]
        omega
      rw [he, Nat.add_mod_right]
      apply Nat.mod_eq_of_lt
      calc a * 10 + (c.toNat - 48) ≤
          ws.foldl (fun a c => a * 10 + (c.toNat - 48))
            (a * 10 + (c.toNat - 48)) := dec_val_foldl_mono ws _
        _ < u64 := by simpa [List.foldl_cons] using hlt
    simp only [List.foldl_cons, hstep]
    exact ih (a * 10 + (c.toNat - 48)) (fun x hx => hdig x (by simp [hx]))
      (by simpa [List.foldl_cons] using hlt)

/-- On a digits-only token whose value is representable, `view_to_int`
computes the pure decimal value. -/
theorem view_to_int_eq_dec_val (w : List Char)
    (hdig : ∀ c ∈ w, 48 ≤ c.toNat ∧ c.toNat ≤ 57) (hlt : dec_val w < u64) :
    view_to_int w = dec_val w :=
  view_to_int_foldl_eq w 0 (fun c hc => (hdig c hc).1) hlt

theorem count_words_loop_tokens (l : List Char) :
    (∀ n, count_words_loop false n l = n + (tokens_loop [] l).length) ∧
    (∀ acc : List Char, acc ≠ [] → ∀ n,
      count_words_loop true n l + 1 = n + (tokens_loop acc l).length) := by
  induction l with
  | nil =>
    constructor
    · intro n; simp [count_words_loop, tokens_loop]
    · intro acc hacc n
      simp [count_words_loop, tokens_loop, List.isEmpty_iff, hacc]
  | cons c cs ih =>
    by_cases h : is_ws c
    · constructor
      · intro n
        rw [show count_words_loop false n (c :: cs) =
            count_words_loop false n cs by simp [count_words_loop, h]]
        rw [show tokens_loop [] (c :: cs) = tokens_loop [] cs by
          simp [tokens_loop, h]]
        exact ih.1 n
      · intro acc hacc n
        rw [show count_words_loop true n (c :: cs) =
            count_words_loop false n cs by simp [count_words_loop, h]]
        rw [show tokens_loop acc (c :: cs) = acc.reverse :: tokens_loop [] cs by
          simp [tokens_loop, h, List.isEmpty_iff, hacc]]
        rw [ih.1 n]
        simp only [List.length_cons]
        omega
    · constructor
      · intro n
        rw [show count_words_loop false n (c :: cs) =
            count_words_loop true (n + 1) cs by simp [count_words_loop, h]]
        rw [show tokens_loop [] (c :: cs) = tokens_loop [c] cs by
          simp [tokens_loop, h]]
        have := ih.2 [c] (by simp) (n + 1)
        omega
      · intro acc hacc n
        rw [show count_words_loop true n (c :: cs) =
            count_words_loop true n cs by simp [count_words_loop, h]]
        rw [show tokens_loop acc (c :: cs) = tokens_loop (c :: acc) cs by
          simp [tokens_loop, h]]
        exact ih.2 (c :: acc) (by simp) n

/-- `count_words` counts exactly the tokens. -/
theorem count_words_eq_tokens_length (text : List Char) :
    count_words text = (tokens text).length := by
  have h := (count_words_loop_tokens text).1 0
  simpa [count_words, tokens] using h

/-! ## Closed-form lemmas for graph building -/

theorem flat_pairs_length (q : List (Nat × Nat)) :
    (flat_pairs q).length = 2 * q.length := by
  induction q with
  | nil => simp [flat_pairs]
  | cons p rest ih => simp [flat_pairs, ih]; omega

theorem last_idx_lt (l : List (Nat × Nat)) (s j : Nat)
    (h : last_idx l s = some j) : j < l.length := by
  induction l generalizing j with
  | nil => simp [last_idx] at h
  | cons p rest ih =>
    simp only [last_idx] at h
    cases hr : last_idx rest s with
    | some k =>
      rw [hr] at h
      have := ih k hr
      simp only [Option.some_inj] at h
      simp [← h, List.length_cons]
      omega
    | none =>
      rw [hr] at h
      by_cases hp : p.1 = s
      · simp [hp] at h
        simp [← h]
      · simp [hp] at h

theorem last_idx_append (l : List (Nat × Nat)) (s d t : Nat) :
    last_idx (l ++ [(s, d)]) t =
      if s = t then some l.length else last_idx l t := by
  induction l with
  | nil =>
    by_cases hst : s = t
    · simp [last_idx, hst]
    · simp [last_idx, hst]
  | cons p rest ih =>
    have h1 : last_idx ((p :: rest) ++ [(s, d)]) t =
        match last_idx (rest ++ [(s, d)]) t with
        | some k => some (k + 1)
        | none => if p.1 = t then some 0 else none := rfl
    have h2 : last_idx (p :: rest) t =
        match last_idx rest t with
        | some k => some (k + 1)
        | none => if p.1 = t then some 0 else none := rfl
    rw [h1, ih]
    by_cases hst : s = t
    · rw [if_pos hst, if_pos hst]
      simp
    · rw [if_neg hst, if_neg hst, h2]

theorem edges_of_length (l : List (Nat × Nat)) :
    (edges_of l).length = l.length := by
  simp [edges_of]

theorem edges_of_append (l : List (Nat × Nat)) (s d : Nat) :
    edges_of (l ++ [(s, d)]) =
      edges_of l ++ [{ dst_node := d, next_edge := last_idx l s }] := by
  unfold edges_of
  rw [show (l ++ [(s, d)]).length = l.length + 1 by simp]
  rw [List.range_succ, List.map_append]
  congr 1
  · apply List.map_congr_left
    intro k hk
    have hk' : k < l.length := List.mem_range.mp hk
    have hgd : (l ++ [(s, d)]).getD k (0, 0) = l.getD k (0, 0) := by
      simp [List.getD, List.getElem?_append, hk']
    have htk : (l ++ [(s, d)]).take k = l.take k := by
      rw [List.take_append_eq_append_take]
      simp [Nat.sub_eq_zero_of_le (Nat.le_of_lt hk')]
    rw [hgd, htk]
  · have hgd : (l ++ [(s, d)]).getD l.length (0, 0) = (s, d) := by
      simp [List.getD, List.getElem?_append_right (Nat.le_refl l.length)]
    have htk : (l ++ [(s, d)]).take l.length = l := by
      rw [List.take_append_eq_append_take]
      simp
    simp [hgd, htk]

theorem built_graph_nodes_get (maxN maxE N : Nat) (l : List (Nat × Nat))
    (i : Nat) :
    (built_graph maxN maxE N l).nodes[i]? =
      if i < maxN then
        some { node_id := if i < N then some i else none
               edge_begin_id := last_idx l i }
      else none := by
  by_cases hi : i < maxN
  · simp [built_graph, List.getElem?_map, List.getElem?_range, hi]
  · rw [if_neg hi]
    apply List.getElem?_eq_none
    simp only [built_graph, List.length_map, List.length_range]
    omega

theorem built_graph_init (maxN maxE N : Nat) (hN : N ≤ maxN) :
    graph_raw.init maxN maxE N = some (built_graph maxN maxE N []) := by
  unfold graph_raw.init built_graph
  rw [if_pos hN]
  congr 1
  congr 1
  apply List.map_congr_left
  intro i _
  by_cases hi : i < N
  · simp [hi, last_idx]
  · simp [hi, last_idx]

theorem built_graph_add_edge (maxN maxE N : Nat) (l : List (Nat × Nat))
    (s d : Nat) (hs : s < maxN) (hcap : l.length < maxE) :
    (built_graph maxN maxE N l).add_edge s d =
      some (built_graph maxN maxE N (l ++ [(s, d)])) := by
  unfold graph_raw.add_edge
  rw [built_graph_nodes_get maxN maxE N l s, if_pos hs]
  have halloc : (built_graph maxN maxE N l).edges.alloc_edge d
      (last_idx l s) =
      some ({ max_edges := maxE
              edge_memory := edges_of l ++
                [{ dst_node := d, next_edge := last_idx l s }] },
            l.length) := by
    unfold edge_storage_t.alloc_edge
    simp [built_graph, edges_of_length, hcap]
  simp only [halloc]
  refine congrArg some ?_
  simp only [built_graph, graph_raw.mk.injEq, edge_storage_t.mk.injEq]
  refine ⟨trivial, trivial, ?_, trivial, (edges_of_append l s d).symm⟩
  apply List.ext_getElem?
  intro j
  by_cases hj : j = s
  · subst hj
    rw [List.getElem?_set_eq_of_lt]
    · simp [List.getElem?_map, List.getElem?_range, hs, last_idx_append]
    · simpa using hs
  · rw [List.getElem?_set_ne (by omega)]
    by_cases hjm : j < maxN
    · simp only [List.getElem?_map, List.getElem?_range, hjm, Option.map_some']
      rw [last_idx_append, if_neg (show ¬s = j from fun h => hj h.symm)]
    · have hrange : (List.range maxN)[j]? = none :=
        List.getElem?_eq_none (by simpa using le_of_not_lt hjm)
      rw [List.getElem?_map, List.getElem?_map, hrange]
      simp

/-! ## Walk lemmas -/

theorem adj_list_eq_walk (g : graph_raw) :
    ∀ (fuel : Nat) (e : Option Nat),
      g.adj_list fuel e = walk g.edges.edge_memory fuel e := by
  intro fuel
  induction fuel with
  | zero => intro e; cases e <;> simp [graph_raw.adj_list, walk]
  | succ f ih =>
    intro e
    cases e with
    | none => simp [graph_raw.adj_list, walk]
    | some eid =>
      simp only [graph_raw.adj_list, walk, edge_storage_t.get_edge]
      cases g.edges.edge_memory[eid]? with
      | none => rfl
      | some rec => simp only [ih]

theorem wf_store_edges_of (l : List (Nat × Nat)) : wf_store (edges_of l) := by
  intro k e hk j hj
  unfold edges_of at hk
  by_cases hkl : k < l.length
  · rw [List.getElem?_map] at hk
    rw [List.getElem?_range hkl] at hk
    simp only [Option.map_some', Option.some_inj] at hk
    rw [← hk] at hj
    simp only at hj
    have := last_idx_lt (l.take k) ((l.getD k (0, 0)).1) j hj
    have hlen : (l.take k).length ≤ k := by simp [List.length_take]
    omega
  · rw [List.getElem?_map] at hk
    rw [List.getElem?_eq_none (by simpa using le_of_not_lt hkl)] at hk
    simp at hk

theorem walk_extend (es ex : List edge_t) (hwf : wf_store es) :
    ∀ (fuel : Nat) (e : Option Nat), (∀ i ∈ e, i < es.length) →
      walk (es ++ ex) fuel e = walk es fuel e := by
  intro fuel
  induction fuel with
  | zero => intro e _; cases e <;> simp [walk]
  | succ f ih =>
    intro e he
    cases e with
    | none => simp [walk]
    | some eid =>
      have heid : eid < es.length := he eid rfl
      simp only [walk]
      rw [List.getElem?_append_left heid]
      cases hrec : es[eid]? with
      | none => simp [List.getElem?_eq_none_iff] at hrec; omega
      | some rec =>
        have hnext : walk (es ++ ex) f rec.next_edge =
            walk es f rec.next_edge :=
          ih rec.next_edge (fun j hj =>
            Nat.lt_trans (hwf eid rec hrec j hj) heid)
        simp only [hnext]

theorem adj_of_nil (s : Nat) : adj_of [] s = [] := by simp [adj_of]

theorem adj_of_append (l : List (Nat × Nat)) (t d s : Nat) :
    adj_of (l ++ [(t, d)]) s =
      if t = s then d :: adj_of l s else adj_of l s := by
  unfold adj_of
  rw [List.filter_append]
  by_cases hts : t = s
  · simp [hts]
  · simp [hts]

theorem walk_edges_of (l : List (Nat × Nat)) :
    ∀ (fuel : Nat) (s : Nat), l.length ≤ fuel →
      walk (edges_of l) fuel (last_idx l s) = some (adj_of l s) := by
  induction l using List.reverseRecOn with
  | nil =>
    intro fuel s _
    simp [last_idx, edges_of, walk, adj_of_nil]
  | append_singleton l p ih =>
    intro fuel s hfuel
    obtain ⟨t, d⟩ := p
    rw [last_idx_append l t d s, edges_of_append l t d]
    have hlen : l.length < fuel := by
      simp only [List.length_append, List.length_singleton] at hfuel
      omega
    by_cases hts : t = s
    · rw [if_pos hts]
      obtain ⟨f, rfl⟩ : ∃ f, fuel = f + 1 :=
        ⟨fuel - 1, by omega⟩
      simp only [walk]
      rw [List.getElem?_append_right (by simp [edges_of_length])]
      rw [show l.length - (edges_of l).length = 0 by simp [edges_of_length]]
      simp only [List.getElem?_cons_zero]
      rw [walk_extend (edges_of l) _ (wf_store_edges_of l) f (last_idx l t)
        (fun j hj => by
          have := last_idx_lt l t j hj
          simpa [edges_of_length] using this)]
      rw [ih f t (by omega)]
      rw [adj_of_append l t d s, if_pos hts, hts]
    · rw [if_neg hts]
      rw [walk_extend (edges_of l) _ (wf_store_edges_of l) fuel (last_idx l s)
        (fun j hj => by
          have := last_idx_lt l s j hj
          simpa [edges_of_length] using this)]
      rw [ih fuel s (by omega)]
      rw [adj_of_append l t d s, if_neg hts]

theorem built_graph_first_edge (maxN maxE N : Nat) (l : List (Nat × Nat))
    (i : Nat) (hi : i < maxN) :
    (built_graph maxN maxE N l).first_edge i = some (last_idx l i) := by
  unfold graph_raw.first_edge
  rw [built_graph_nodes_get maxN maxE N l i, if_pos hi]
  rfl

theorem built_graph_adj_list (maxN maxE N : Nat) (l : List (Nat × Nat))
    (i : Nat) :
    (built_graph maxN maxE N l).adj_list
        (built_graph maxN maxE N l).edges.edge_memory.length
        (last_idx l i) = some (adj_of l i) := by
  rw [adj_list_eq_walk]
  show walk (edges_of l) (edges_of l).length (last_idx l i) = some (adj_of l i)
  rw [edges_of_length]
  exact walk_edges_of l l.length i (Nat.le_refl _)

theorem built_graph_has_adj (maxN maxE N L : Nat) (l : List (Nat × Nat))
    (hL : L ≤ maxN) :
    has_adj (built_graph maxN maxE N l) L (adj_of l) := by
  intro i hi
  exact ⟨last_idx l i,
    built_graph_first_edge maxN maxE N l i (Nat.lt_of_lt_of_le hi hL),
    built_graph_adj_list maxN maxE N l i⟩

/-! ## `read_graph` in closed form -/

theorem read_graph_loop_builds (maxN maxE N : Nat) :
    ∀ (q done : List (Nat × Nat)) (cur : List Char) (fuel : Nat),
      (tokens cur).map dec_val = flat_pairs q →
      (∀ w ∈ tokens cur, good_word w) →
      (cur = [] ↔ tokens cur = []) →
      (∀ x ∈ cur.take 1, is_ws x = false) →
      cur.length ≤ fuel →
      (∀ p ∈ q, p.1 < maxN) →
      done.length + q.length ≤ maxE →
      read_graph_loop fuel (built_graph maxN maxE N done) cur =
        some (built_graph maxN maxE N (done ++ q)) := by
  intro q
  induction q with
  | nil =>
    intro done cur fuel hmap _ hiff _ _ _ _
    have htk : tokens cur = [] := by
      have : (tokens cur).map dec_val = [] := by simpa [flat_pairs] using hmap
      exact List.map_eq_nil_iff.mp this
    have hcur : cur = [] := hiff.mpr htk
    subst hcur
    simp [read_graph_loop]
  | cons p q' ih =>
    obtain ⟨s, d⟩ := p
    intro done cur fuel hmap hgood hiff hhead hfuel hbnd hcap
    have htkne : tokens cur ≠ [] := by
      intro h
      rw [h] at hmap
      simp [flat_pairs] at hmap
    have hcurne : cur ≠ [] := fun h => htkne (hiff.mp h)
    obtain ⟨w1, r1, heq1, htk1, hh1, hlen1, hiff1⟩ :=
      read_int_cursor_step cur hcurne hhead
    rw [htk1] at hmap
    simp only [List.map_cons, flat_pairs, List.cons.injEq] at hmap
    obtain ⟨hw1, hmap1⟩ := hmap
    have hgw1 : good_word w1 := hgood w1 (by rw [htk1]; exact List.mem_cons_self _ _)
    have hview1 : view_to_int w1 = s := by
      rw [view_to_int_eq_dec_val w1 hgw1.2.1 hgw1.2.2, hw1]
    have htkr1ne : tokens r1 ≠ [] := by
      intro h
      rw [h] at hmap1
      simp [flat_pairs] at hmap1
    have hr1ne : r1 ≠ [] := fun h => htkr1ne (hiff1.mp h)
    obtain ⟨w2, r2, heq2, htk2, hh2, hlen2, hiff2⟩ :=
      read_int_cursor_step r1 hr1ne hh1
    rw [htk2] at hmap1
    simp only [List.map_cons, List.cons.injEq] at hmap1
    obtain ⟨hw2, hmap2⟩ := hmap1
    have hgw2 : good_word w2 := by
      apply hgood w2
      rw [htk1, htk2]
      exact List.mem_cons_of_mem _ (List.mem_cons_self _ _)
    have hview2 : view_to_int w2 = d := by
      rw [view_to_int_eq_dec_val w2 hgw2.2.1 hgw2.2.2, hw2]
    cases cur with
    | nil => exact absurd rfl hcurne
    | cons c cs =>
      cases fuel with
      | zero => simp at hfuel
      | succ f =>
        have hadd : (built_graph maxN maxE N done).add_edge s d =
            some (built_graph maxN maxE N (done ++ [(s, d)])) := by
          apply built_graph_add_edge
          · exact (hbnd (s, d) (List.mem_cons_self _ _))
          · simp only [List.length_cons] at hcap
            omega
        have hmain : read_graph_loop (f + 1) (built_graph maxN maxE N done)
            (c :: cs) =
            read_graph_loop f (built_graph maxN maxE N (done ++ [(s, d)])) r2 := by
          simp only [read_graph_loop, heq1, heq2, hview1, hview2, hadd]
        rw [hmain]
        have hres := ih (done ++ [(s, d)]) r2 f
          (by simpa using hmap2)
          (fun w hw => hgood w (by
            rw [htk1, htk2]
            exact List.mem_cons_of_mem _ (List.mem_cons_of_mem _ hw)))
          hiff2 hh2
          (by
            simp only [List.length_cons] at hfuel hlen1
            omega)
          (fun p hp => hbnd p (List.mem_cons_of_mem _ hp))
          (by
            simp only [List.length_append, List.length_cons,
              List.length_nil] at hcap ⊢
            omega)
        rw [hres]
        congr 1
        simp

/-- Under `well_formed`, `read_graph` succeeds and yields exactly the
closed-form graph: `N` used nodes, node array of length `N`
(`max_graph_nodes`), arena capacity `count_words text = 2 M + 1`
(`max_graph_edges`), and the pairs inserted in input order. -/
theorem read_graph_eq (text : List Char) (N : Nat) (pairs : List (Nat × Nat))
    (h : well_formed text N pairs) :
    read_graph text = some (built_graph N (2 * pairs.length + 1) N pairs) ∧
    max_graph_nodes text = N ∧
    max_graph_edges text = 2 * pairs.length + 1 := by
  obtain ⟨hne, hhead, hgood, hmap, hbnd⟩ := h
  obtain ⟨w1, r1, heq1, htk1, hh1, hlen1, hiff1⟩ :=
    read_int_cursor_step text hne hhead
  rw [htk1] at hmap
  simp only [List.map_cons, List.cons.injEq] at hmap
  obtain ⟨hw1, hmap1⟩ := hmap
  have hgw1 : good_word w1 := hgood w1 (by rw [htk1]; exact List.mem_cons_self _ _)
  have hview1 : view_to_int w1 = N := by
    rw [view_to_int_eq_dec_val w1 hgw1.2.1 hgw1.2.2, hw1]
  have hmgn : max_graph_nodes text = N := by
    simp only [max_graph_nodes, read_int_v, heq1, hview1]
  have hmge : max_graph_edges text = 2 * pairs.length + 1 := by
    have hlen : (tokens r1).length = 2 * pairs.length := by
      have := congrArg List.length hmap1
      simpa [flat_pairs_length] using this
    simp only [max_graph_edges, count_words_eq_tokens_length, htk1,
      List.length_cons, hlen]
  refine ⟨?_, hmgn, hmge⟩
  have hinit := built_graph_init N (2 * pairs.length + 1) N (Nat.le_refl N)
  have hloop := read_graph_loop_builds N (2 * pairs.length + 1) N pairs []
    r1 text.length hmap1
    (fun w hw => hgood w (by rw [htk1]; exact List.mem_cons_of_mem _ hw))
    hiff1 hh1 (Nat.le_of_lt hlen1)
    (fun p hp => (hbnd p hp).1)
    (by simp; omega)
  simp only [read_graph, heq1, hview1, hmgn, hmge, hinit]
  simpa using hloop

/-! ## `double_up_edges` in closed form -/

theorem two_way_length (i : Nat) (ds : List Nat) :
    (two_way i ds).length = 2 * ds.length := by
  induction ds with
  | nil => simp [two_way]
  | cons d rest ih => simp [two_way, ih]; omega

theorem add_two_edges_builds (maxN maxE N i : Nat) :
    ∀ (ds : List Nat) (q : List (Nat × Nat)),
      i < maxN → (∀ d ∈ ds, d < maxN) →
      q.length + 2 * ds.length ≤ maxE →
      add_two_edges i ds (built_graph maxN maxE N q) =
        some (built_graph maxN maxE N (q ++ two_way i ds)) := by
  intro ds
  induction ds with
  | nil =>
    intro q _ _ _
    simp [add_two_edges, two_way]
  | cons d rest ih =>
    intro q hi hds hcap
    simp only [List.length_cons] at hcap
    have h1 : (built_graph maxN maxE N q).add_edge i d =
        some (built_graph maxN maxE N (q ++ [(i, d)])) :=
      built_graph_add_edge maxN maxE N q i d hi (by omega)
    have h2 : (built_graph maxN maxE N (q ++ [(i, d)])).add_edge d i =
        some (built_graph maxN maxE N ((q ++ [(i, d)]) ++ [(d, i)])) :=
      built_graph_add_edge maxN maxE N (q ++ [(i, d)]) d i
        (hds d (List.mem_cons_self _ _)) (by simp; omega)
    have h3 := ih ((q ++ [(i, d)]) ++ [(d, i)])
      hi (fun x hx => hds x (List.mem_cons_of_mem _ hx))
      (by simp; omega)
    simp only [add_two_edges, h1, h2, h3]
    congr 2
    simp [two_way]

theorem double_up_loop_builds (maxN maxE N : Nat) (l : List (Nat × Nat)) :
    ∀ (todo : List Nat) (q : List (Nat × Nat)),
      (∀ i ∈ todo, i < maxN) →
      (∀ i ∈ todo, ∀ d ∈ adj_of l i, d < maxN) →
      q.length + (dup_of l todo).length ≤ maxE →
      double_up_loop (built_graph maxN maxE N l) todo
          (built_graph maxN maxE N q) =
        some (built_graph maxN maxE N (q ++ dup_of l todo)) := by
  intro todo
  induction todo with
  | nil =>
    intro q _ _ _
    simp [double_up_loop, dup_of]
  | cons i rest ih =>
    intro q htodo hdst hcap
    have hi : i < maxN := htodo i (List.mem_cons_self _ _)
    have hfe := built_graph_first_edge maxN maxE N l i hi
    have hal := built_graph_adj_list maxN maxE N l i
    have hdup : (dup_of l (i :: rest)).length =
        (two_way i (adj_of l i)).length + (dup_of l rest).length := by
      simp [dup_of]
    have hadd := add_two_edges_builds maxN maxE N i (adj_of l i) q hi
      (hdst i (List.mem_cons_self _ _))
      (by rw [hdup, two_way_length] at hcap; omega)
    have hrest := ih (q ++ two_way i (adj_of l i))
      (fun x hx => htodo x (List.mem_cons_of_mem _ hx))
      (fun x hx => hdst x (List.mem_cons_of_mem _ hx))
      (by
        rw [hdup] at hcap
        simp only [List.length_append]
        omega)
    simp only [double_up_loop, hfe, hal, hadd, hrest]
    congr 2
    simp [dup_of]

/-- Under the bounds the pipeline guarantees, `double_up_edges` succeeds and
yields exactly the graph built from the doubled pair list. -/
theorem double_up_edges_eq (maxN maxE N : Nat) (l : List (Nat × Nat))
    (hN : N ≤ maxN)
    (hdst : ∀ i, i < N → ∀ d ∈ adj_of l i, d < maxN)
    (hcap : (dup_of l (List.range N)).length ≤ maxE) :
    double_up_edges (built_graph maxN maxE N l) =
      some (built_graph maxN maxE N (dup_of l (List.range N))) := by
  have hinit : graph_raw.init (built_graph maxN maxE N l).max_nodes
      (built_graph maxN maxE N l).edges.max_edges
      (built_graph maxN maxE N l).get_num_nodes =
      some (built_graph maxN maxE N []) := by
    show graph_raw.init maxN maxE N = _
    exact built_graph_init maxN maxE N hN
  have hloop := double_up_loop_builds maxN maxE N l (List.range N) []
    (fun i hi => Nat.lt_of_lt_of_le (List.mem_range.mp hi) hN)
    (fun i hi => hdst i (List.mem_range.mp hi))
    (by simpa using hcap)
  simp only [double_up_edges, hinit]
  show double_up_loop (built_graph maxN maxE N l)
      (List.range (built_graph maxN maxE N l).get_num_nodes)
      (built_graph maxN maxE N []) = _
  rw [show (built_graph maxN maxE N l).get_num_nodes = N from rfl]
  simpa using hloop

/-! ## Lengths and membership of the doubled pair list -/

theorem sum_indicator (p1 : Nat) :
    ∀ N : Nat, ((List.range N).map fun i =>
      if p1 = i then (1 : Nat) else 0).sum = if p1 < N then 1 else 0 := by
  intro N
  induction N with
  | zero => simp
  | succ n ih =>
    rw [List.range_succ, List.map_append, List.sum_append, ih]
    by_cases h1 : p1 = n
    · subst h1
      simp
    · by_cases h2 : p1 < n
      · rw [if_pos h2, if_pos (by omega)]
        simp [h1]
      · rw [if_neg h2, if_neg (by omega)]
        simp [h1]

theorem adj_of_cons (p : Nat × Nat) (rest : List (Nat × Nat)) (i : Nat) :
    adj_of (p :: rest) i =
      if p.1 = i then adj_of rest i ++ [p.2] else adj_of rest i := by
  unfold adj_of
  by_cases h : p.1 = i
  · simp [List.filter_cons, h]
  · simp [List.filter_cons, h]

theorem sum_adj_of (N : Nat) (l : List (Nat × Nat))
    (hb : ∀ p ∈ l, p.1 < N) :
    ((List.range N).map fun i => (adj_of l i).length).sum = l.length := by
  induction l with
  | nil => simp [adj_of_nil]
  | cons p rest ih =>
    have hrest := ih (fun x hx => hb x (List.mem_cons_of_mem _ hx))
    have hmap : (List.range N).map (fun i => (adj_of (p :: rest) i).length) =
        (List.range N).map (fun i =>
          (adj_of rest i).length + if p.1 = i then 1 else 0) := by
      apply List.map_congr_left
      intro i _
      rw [adj_of_cons]
      by_cases h : p.1 = i
      · simp [h]
      · simp [h]
    rw [hmap]
    have hsplit : ((List.range N).map fun i =>
        (adj_of rest i).length + if p.1 = i then 1 else 0).sum =
        ((List.range N).map fun i => (adj_of rest i).length).sum +
          ((List.range N).map fun i =>
            if p.1 = i then (1 : Nat) else 0).sum := by
      induction (List.range N) with
      | nil => simp
      | cons j js ihs =>
        simp only [List.map_cons, List.sum_cons, ihs]
        omega
    rw [hsplit, hrest, sum_indicator p.1 N,
      if_pos (hb p (List.mem_cons_self _ _))]
    simp

theorem dup_of_length (l : List (Nat × Nat)) :
    ∀ todo : List Nat, (dup_of l todo).length =
      2 * ((todo.map fun i => (adj_of l i).length).sum) := by
  intro todo
  induction todo with
  | nil => simp [dup_of]
  | cons i rest ih =>
    simp only [dup_of, List.length_append, two_way_length, List.map_cons,
      List.sum_cons, ih]
    omega

theorem dup_of_range_length (N : Nat) (l : List (Nat × Nat))
    (hb : ∀ p ∈ l, p.1 < N) :
    (dup_of l (List.range N)).length = 2 * l.length := by
  rw [dup_of_length, sum_adj_of N l hb]

theorem mem_adj_of (l : List (Nat × Nat)) (s d : Nat) :
    d ∈ adj_of l s ↔ (s, d) ∈ l := by
  unfold adj_of
  rw [List.mem_reverse, List.mem_map]
  constructor
  · rintro ⟨p, hp, rfl⟩
    have := List.mem_filter.mp hp
    have hps : p.1 = s := by simpa using this.2
    have : p = (s, p.2) := by
      rw [← hps]
    rw [← this]
    exact List.mem_filter.mp hp |>.1
  · intro h
    exact ⟨(s, d), List.mem_filter.mpr ⟨h, by simp⟩, rfl⟩

theorem mem_two_way (i : Nat) (ds : List Nat) (x y : Nat) :
    (x, y) ∈ two_way i ds ↔
      (x = i ∧ y ∈ ds) ∨ (y = i ∧ x ∈ ds) := by
  induction ds with
  | nil => simp [two_way]
  | cons d rest ih =>
    simp only [two_way, List.mem_cons, ih, Prod.mk.injEq]
    constructor
    · rintro (⟨rfl, rfl⟩ | ⟨rfl, rfl⟩ | ⟨rfl, h⟩ | ⟨rfl, h⟩)
      · exact Or.inl ⟨rfl, Or.inl rfl⟩
      · exact Or.inr ⟨rfl, Or.inl rfl⟩
      · exact Or.inl ⟨rfl, Or.inr h⟩
      · exact Or.inr ⟨rfl, Or.inr h⟩
    · rintro (⟨rfl, rfl | h⟩ | ⟨rfl, rfl | h⟩)
      · exact Or.inl ⟨rfl, rfl⟩
      · exact Or.inr (Or.inr (Or.inl ⟨rfl, h⟩))
      · exact Or.inr (Or.inl ⟨rfl, rfl⟩)
      · exact Or.inr (Or.inr (Or.inr ⟨rfl, h⟩))

theorem mem_dup_of (l : List (Nat × Nat)) (x y : Nat) :
    ∀ todo : List Nat, (x, y) ∈ dup_of l todo ↔
      ∃ i ∈ todo, (x = i ∧ y ∈ adj_of l i) ∨ (y = i ∧ x ∈ adj_of l i) := by
  intro todo
  induction todo with
  | nil => simp [dup_of]
  | cons i rest ih =>
    simp only [dup_of, List.mem_append, ih, mem_two_way, List.mem_cons]
    constructor
    · rintro (h | ⟨j, hj, hh⟩)
      · exact ⟨i, Or.inl rfl, h⟩
      · exact ⟨j, Or.inr hj, hh⟩
    · rintro ⟨j, rfl | hj, hh⟩
      · exact Or.inl hh
      · exact Or.inr ⟨j, hj, hh⟩

/-- After symmetrization the edge set is exactly the symmetric closure of
the original pair list. -/
theorem mem_dup_of_range (N : Nat) (l : List (Nat × Nat))
    (hb : ∀ p ∈ l, p.1 < N ∧ p.2 < N) (x y : Nat) :
    (x, y) ∈ dup_of l (List.range N) ↔ ((x, y) ∈ l ∨ (y, x) ∈ l) := by
  rw [mem_dup_of]
  constructor
  · rintro ⟨i, _, (⟨rfl, hm⟩ | ⟨rfl, hm⟩)⟩
    · exact Or.inl ((mem_adj_of l x y).mp hm)
    · exact Or.inr ((mem_adj_of l y x).mp hm)
  · rintro (h | h)
    · exact ⟨x, List.mem_range.mpr (hb (x, y) h).1, Or.inl ⟨rfl,
        (mem_adj_of l x y).mpr h⟩⟩
    · exact ⟨y, List.mem_range.mpr (hb (y, x) h).1, Or.inr ⟨rfl,
        (mem_adj_of l y x).mpr h⟩⟩

/-! ## Depth-first marking: label-array and reachability lemmas -/

theorem getElem?_lt_length {v : List Int} {n : Nat} {x : Int}
    (h : v[n]? = some x) : n < v.length := by
  by_contra hc
  rw [List.getElem?_eq_none (le_of_not_lt hc)] at h
  exact Option.noConfusion h

theorem mem_unv (v : List Int) (i : Nat) :
    i ∈ unv v ↔ v[i]? = some (-1) := by
  unfold unv
  rw [Finset.mem_filter, Finset.mem_range]
  constructor
  · exact fun h => h.2
  · exact fun h => ⟨getElem?_lt_length h, h⟩

theorem unv_set (v : List Int) (n : Nat) (c : Int) (hc : c ≠ -1)
    (hn : v[n]? = some (-1)) :
    unv (v.set n c) = (unv v).erase n := by
  have hlen : n < v.length := getElem?_lt_length hn
  ext i
  rw [mem_unv, Finset.mem_erase, mem_unv]
  by_cases hi : i = n
  · subst hi
    rw [List.getElem?_set_eq_of_lt c hlen]
    simp [hc]
  · rw [List.getElem?_set_ne (fun h => hi h.symm)]
    simp [hi]

theorem unv_subset_of_pointwise (v v' : List Int) (c : Int) (hc : c ≠ -1)
    (h : ∀ p : Nat, v'[p]? = some c ∨ v'[p]? = v[p]?) :
    unv v' ⊆ unv v := by
  intro p hp
  rw [mem_unv] at hp ⊢
  cases h p with
  | inl hcol =>
    rw [hp] at hcol
    exact absurd (Option.some_inj.mp hcol).symm hc
  | inr heq => rw [← heq]; exact hp

theorem set_unv_pred (v : List Int) (node : Nat) (c : Int) (hc : c ≠ -1)
    (hnode : node < v.length) (y : Nat) :
    (v.set node c)[y]? = some (-1) ↔ (v[y]? = some (-1) ∧ y ≠ node) := by
  by_cases hy : y = node
  · subst hy
    rw [List.getElem?_set_eq_of_lt c hnode]
    simp [hc]
  · rw [List.getElem?_set_ne (fun h => hy h.symm)]
    simp [hy]

theorem reach_through_mono (A : Nat → List Nat) (v v' : List Int)
    (h : ∀ y : Nat, v[y]? = some (-1) → v'[y]? = some (-1)) {a b : Nat}
    (hr : reach_through A v a b) : reach_through A v' a b :=
  Relation.ReflTransGen.mono (fun _ y hs => ⟨hs.1, h y hs.2⟩) hr

theorem reach_through_to_reaches (A : Nat → List Nat) (v : List Int)
    {a b : Nat} (hr : reach_through A v a b) : reaches A a b :=
  Relation.ReflTransGen.mono (fun _ _ hs => hs.1) hr

/-- A walk through unvisited territory that does not end at its start can
avoid its start entirely (cut at the last visit). -/
theorem reflTransGen_remove_start (A : Nat → List Nat) (P : Nat → Prop)
    {a b : Nat}
    (h : Relation.ReflTransGen (fun x y => y ∈ A x ∧ P y) a b) :
    b = a ∨ Relation.ReflTransGen (fun x y => y ∈ A x ∧ (P y ∧ y ≠ a)) a b := by
  induction h with
  | refl => exact Or.inl rfl
  | tail hab hstep ih =>
    rename_i m c
    by_cases hca : c = a
    · exact Or.inl hca
    · right
      cases ih with
      | inl hma =>
        subst hma
        exact Relation.ReflTransGen.single ⟨hstep.1, hstep.2, hca⟩
      | inr hr =>
        exact Relation.ReflTransGen.tail hr ⟨hstep.1, hstep.2, hca⟩

/-- Head expansion for a depth-first mark: the territory claimable from
`node` in `v` is `node` itself plus whatever is claimable from an unvisited
neighbour of `node` after `node` has been labelled. -/
theorem reach_through_set_iff (A : Nat → List Nat) (v : List Int)
    (node : Nat) (c : Int) (hc : c ≠ -1) (hnode : v[node]? = some (-1))
    (p : Nat) :
    reach_through A v node p ↔
      p = node ∨ ∃ d ∈ A node, (v.set node c)[d]? = some (-1) ∧
        reach_through A (v.set node c) d p := by
  have hlen : node < v.length := getElem?_lt_length hnode
  have hpred := set_unv_pred v node c hc hlen
  constructor
  · intro h
    cases reflTransGen_remove_start A (fun y => v[y]? = some (-1)) h with
    | inl hpn => exact Or.inl hpn
    | inr h1 =>
      have h2 : reach_through A (v.set node c) node p :=
        Relation.ReflTransGen.mono
          (fun _ y hs => ⟨hs.1, (hpred y).mpr ⟨hs.2.1, hs.2.2⟩⟩) h1
      cases Relation.ReflTransGen.cases_head h2 with
      | inl hpn => exact Or.inl hpn.symm
      | inr hh =>
        obtain ⟨d, ⟨hdA, hdU⟩, hrest⟩ := hh
        exact Or.inr ⟨d, hdA, hdU, hrest⟩
  · intro h
    cases h with
    | inl hpn =>
      subst hpn
      exact Relation.ReflTransGen.refl
    | inr hh =>
      obtain ⟨d, hdA, hdU, hrest⟩ := hh
      have hdv : v[d]? = some (-1) := ((hpred d).mp hdU).1
      have hrest' : reach_through A v d p :=
        reach_through_mono A (v.set node c) v
          (fun y hy => ((hpred y).mp hy).1) hrest
      exact Relation.ReflTransGen.head ⟨hdA, hdv⟩ hrest'

/-- Claimed territory is closed under unvisited steps. -/
theorem reach_through_closed (A : Nat → List Nat) (v : List Int)
    {d x p : Nat} (hx : reach_through A v d x)
    (hxp : reach_through A v x p) : reach_through A v d p :=
  Relation.ReflTransGen.trans hx hxp

/-- A walk in `v` that stays outside the freshly claimed territory is also
a walk in the updated array `v2`. -/
theorem reach_through_avoid (A : Nat → List Nat) (v v2 : List Int) (d : Nat)
    (hagree : ∀ p, ¬ reach_through A v d p → v2[p]? = v[p]?) :
    ∀ {a b : Nat}, reach_through A v a b → ¬ reach_through A v d b →
      reach_through A v2 a b := by
  intro a b h
  induction h with
  | refl => intro _; exact Relation.ReflTransGen.refl
  | tail hab hstep ih =>
    rename_i m c0
    intro hc0
    have hm : ¬ reach_through A v d m := by
      intro hdm
      exact hc0 (reach_through_closed A v hdm
        (Relation.ReflTransGen.single hstep))
    have hstep2 : c0 ∈ A m ∧ v2[c0]? = some (-1) := by
      refine ⟨hstep.1, ?_⟩
      rw [hagree c0 hc0]
      exact hstep.2
    exact Relation.ReflTransGen.tail (ih hm) hstep2

/-- Joint correctness of `mark_connected` and its neighbour loop: with
enough fuel (more than the number of unvisited labels) the walk returns,
and it labels with `color` exactly the nodes reachable from the start
through unvisited territory, leaving every other label untouched.  In
particular a label, once set, is never overwritten: each node is claimed at
most once. -/
theorem mark_spec (g : graph_raw) (A : Nat → List Nat) :
    ∀ fuel : Nat,
      (∀ (node : Nat) (v : List Int) (color : Int),
        has_adj g v.length A →
        (∀ i, i < v.length → ∀ d ∈ A i, d < v.length) →
        v[node]? = some (-1) → color ≠ -1 → (unv v).card < fuel →
        ∃ v', mark_connected g fuel node v color = some v' ∧
          v'.length = v.length ∧
          (∀ p, reach_through A v node p → v'[p]? = some color) ∧
          (∀ p : Nat, ¬ reach_through A v node p → v'[p]? = v[p]?)) ∧
      (∀ (dsts : List Nat) (v : List Int) (color : Int),
        has_adj g v.length A →
        (∀ i, i < v.length → ∀ d ∈ A i, d < v.length) →
        (∀ d ∈ dsts, d < v.length) → color ≠ -1 → (unv v).card < fuel →
        ∃ v', mark_list (fun d vis => mark_connected g fuel d vis color)
            dsts v = some v' ∧
          v'.length = v.length ∧
          (∀ p, (∃ d ∈ dsts, v[d]? = some (-1) ∧ reach_through A v d p) →
            v'[p]? = some color) ∧
          (∀ p : Nat,
            ¬ (∃ d ∈ dsts, v[d]? = some (-1) ∧ reach_through A v d p) →
            v'[p]? = v[p]?)) := by
  intro fuel
  induction fuel with
  | zero =>
    constructor
    · intro node v color _ _ _ _ hcard
      omega
    · intro dsts v color _ _ _ _ hcard
      omega
  | succ f ih =>
    have hP : ∀ (node : Nat) (v : List Int) (color : Int),
        has_adj g v.length A →
        (∀ i, i < v.length → ∀ d ∈ A i, d < v.length) →
        v[node]? = some (-1) → color ≠ -1 → (unv v).card < f + 1 →
        ∃ v', mark_connected g (f + 1) node v color = some v' ∧
          v'.length = v.length ∧
          (∀ p, reach_through A v node p → v'[p]? = some color) ∧
          (∀ p : Nat, ¬ reach_through A v node p → v'[p]? = v[p]?) := by
      intro node v color hA hbound hnode hcolor hcard
      have hlen : node < v.length := getElem?_lt_length hnode
      obtain ⟨h, hfe, hadj⟩ := hA node hlen
      have hv1len : (v.set node color).length = v.length :=
        List.length_set v node color
      have hpos : 0 < (unv v).card :=
        Finset.card_pos.mpr ⟨node, (mem_unv v node).mpr hnode⟩
      have hcard1 : (unv (v.set node color)).card < f := by
        rw [unv_set v node color hcolor hnode,
          Finset.card_erase_of_mem ((mem_unv v node).mpr hnode)]
        omega
      obtain ⟨v', hml, hlen', hmark, hframe⟩ := ih.2 (A node)
        (v.set node color) color
        (by rw [hv1len]; exact hA)
        (by rw [hv1len]; exact hbound)
        (fun d hd => by rw [hv1len]; exact hbound node hlen d hd)
        hcolor hcard1
      have hiff := fun p => reach_through_set_iff A v node color hcolor hnode p
      refine ⟨v', ?_, by rw [hlen', hv1len], ?_, ?_⟩
      · simp only [mark_connected, hnode, hfe, hadj]
        exact hml
      · intro p hp
        cases (hiff p).mp hp with
        | inl hpn =>
          by_cases hD : ∃ d ∈ A node, (v.set node color)[d]? = some (-1) ∧
              reach_through A (v.set node color) d p
          · exact hmark p hD
          · rw [hframe p hD, hpn, List.getElem?_set_eq_of_lt color hlen]
        | inr hD => exact hmark p hD
      · intro p hp
        have hpn : p ≠ node := fun h => hp (h ▸ Relation.ReflTransGen.refl)
        have hnD : ¬ ∃ d ∈ A node, (v.set node color)[d]? = some (-1) ∧
            reach_through A (v.set node color) d p :=
          fun hD => hp ((hiff p).mpr (Or.inr hD))
        rw [hframe p hnD, List.getElem?_set_ne (fun h => hpn h.symm)]
    refine ⟨hP, ?_⟩
    intro dsts
    induction dsts with
    | nil =>
      intro v color _ _ _ _ _
      refine ⟨v, rfl, rfl, ?_, fun p _ => rfl⟩
      rintro p ⟨d, hd, _⟩
      exact absurd hd (List.not_mem_nil d)
    | cons d rest ihd =>
      intro v color hA hbound hdb hcolor hcard
      have hdlen : d < v.length := hdb d (List.mem_cons_self _ _)
      by_cases hm : v[d]? = some (-1)
      · -- unvisited neighbour: claim its territory, then do the rest
        obtain ⟨v2, hmc, hlen2, hmark2, hframe2⟩ :=
          hP d v color hA hbound hm hcolor hcard
        have hsub : ∀ y : Nat, v2[y]? = some (-1) → v[y]? = some (-1) := by
          intro y hy
          by_cases hr : reach_through A v d y
          · rw [hmark2 y hr] at hy
            exact absurd (Option.some_inj.mp hy) hcolor
          · rw [← hframe2 y hr]
            exact hy
        have hcard2 : (unv v2).card < f + 1 := by
          have hss : unv v2 ⊆ unv v := by
            intro p hp
            rw [mem_unv] at hp ⊢
            exact hsub p hp
          have := Finset.card_le_card hss
          omega
        obtain ⟨v3, hml3, hlen3, hmark3, hframe3⟩ := ihd v2 color
          (by rw [hlen2]; exact hA)
          (by rw [hlen2]; exact hbound)
          (fun x hx => by rw [hlen2]; exact hdb x (List.mem_cons_of_mem _ hx))
          hcolor hcard2
        refine ⟨v3, ?_, by rw [hlen3, hlen2], ?_, ?_⟩
        · simp only [mark_list, hm, hmc, hml3]
          simp
        · intro p hp
          obtain ⟨d', hd', hud', hrd'⟩ := hp
          by_cases hrp : reach_through A v d p
          · have hv2p := hmark2 p hrp
            by_cases hD2 : ∃ d2 ∈ rest, v2[d2]? = some (-1) ∧
                reach_through A v2 d2 p
            · exact hmark3 p hD2
            · rw [hframe3 p hD2]
              exact hv2p
          · have hd'rest : d' ∈ rest := by
              cases List.mem_cons.mp hd' with
              | inl hh => exact absurd (hh ▸ hrd') hrp
              | inr hh => exact hh
            have hd'nR : ¬ reach_through A v d d' := fun hR =>
              hrp (reach_through_closed A v hR hrd')
            have hv2d' : v2[d']? = some (-1) := by
              rw [hframe2 d' hd'nR]
              exact hud'
            have hr2 : reach_through A v2 d' p :=
              reach_through_avoid A v v2 d hframe2 hrd' hrp
            exact hmark3 p ⟨d', hd'rest, hv2d', hr2⟩
        · intro p hnD
          have hnrd : ¬ reach_through A v d p := fun hh =>
            hnD ⟨d, List.mem_cons_self _ _, hm, hh⟩
          have hnD2 : ¬ ∃ d2 ∈ rest, v2[d2]? = some (-1) ∧
              reach_through A v2 d2 p := by
            rintro ⟨d2, hd2, hu2, hr2⟩
            have hud2 : v[d2]? = some (-1) := hsub d2 hu2
            have hr : reach_through A v d2 p :=
              reach_through_mono A v2 v hsub hr2
            exact hnD ⟨d2, List.mem_cons_of_mem _ hd2, hud2, hr⟩
          rw [hframe3 p hnD2, hframe2 p hnrd]
      · -- already labelled neighbour: skipped
        have hvd : v[d]? = some v[d] := List.getElem?_eq_getElem hdlen
        have hxne : v[d] ≠ -1 := by
          intro hh
          rw [hh] at hvd
          exact hm hvd
        obtain ⟨v3, hml3, hlen3, hmark3, hframe3⟩ := ihd v color hA hbound
          (fun x hx => hdb x (List.mem_cons_of_mem _ hx)) hcolor hcard
        refine ⟨v3, ?_, hlen3, ?_, ?_⟩
        · simp [mark_list, hvd, hxne, hml3]
        · intro p hp
          obtain ⟨d', hd', hud', hrd'⟩ := hp
          have hd'rest : d' ∈ rest := by
            cases List.mem_cons.mp hd' with
            | inl hh => exact absurd (hh ▸ hud') hm
            | inr hh => exact hh
          exact hmark3 p ⟨d', hd'rest, hud', hrd'⟩
        · intro p hnD
          apply hframe3 p
          rintro ⟨d2, hd2, hu2, hr2⟩
          exact hnD ⟨d2, List.mem_cons_of_mem _ hd2, hu2, hr2⟩

/-! ## The scan loop of `count_connected` -/

theorem reaches_bounded (A : Nat → List Nat) (L : Nat)
    (hbound : ∀ i, i < L → ∀ d ∈ A i, d < L) {i x : Nat} (hi : i < L)
    (h : reaches A i x) : x < L := by
  induction h with
  | refl => exact hi
  | tail hab hstep ih => exact hbound _ ih _ hstep

theorem reaches_symm (A : Nat → List Nat)
    (hsym : ∀ x y : Nat, y ∈ A x → x ∈ A y) {a b : Nat}
    (h : reaches A a b) : reaches A b a :=
  Relation.ReflTransGen.symmetric (fun x y hxy => hsym x y hxy) h

theorem reach_through_of_reaches (A : Nat → List Nat) (v : List Int)
    {i : Nat} (hall : ∀ x, reaches A i x → v[x]? = some (-1)) :
    ∀ {p : Nat}, reaches A i p → reach_through A v i p := by
  intro p h
  induction h with
  | refl => exact Relation.ReflTransGen.refl
  | tail hab hstep ih =>
    exact Relation.ReflTransGen.tail ih
      ⟨hstep, hall _ (Relation.ReflTransGen.tail hab hstep)⟩

theorem unv_card_le (v : List Int) : (unv v).card ≤ v.length := by
  calc (unv v).card ≤ (Finset.range v.length).card :=
        Finset.card_filter_le _ _
    _ = v.length := Finset.card_range _

open scoped Classical in
/-- Invariant of the scan loop: scanning indices `[i0, v.length)` of a
label array in which a node is unvisited exactly when no earlier root
reaches it adds one color per minimal component representative in that
range. -/
theorem count_loop_spec (g : graph_raw) (A : Nat → List Nat) :
    ∀ (k i0 : Nat) (v : List Int) (color : Int),
      i0 + k = v.length →
      v.length ≤ g.max_nodes →
      has_adj g v.length A →
      (∀ i, i < v.length → ∀ d ∈ A i, d < v.length) →
      (∀ x y : Nat, y ∈ A x → x ∈ A y) →
      (∀ p, p < v.length →
        (v[p]? = some (-1) ↔ ¬ ∃ j, j < i0 ∧ reaches A j p)) →
      0 ≤ color →
      count_loop g (List.range' i0 k) v color =
        some (color + (((Finset.range v.length).filter fun j =>
          i0 ≤ j ∧ ∀ j2, j2 < j → ¬ reaches A j2 j).card : Nat)) := by
  intro k
  induction k with
  | zero =>
    intro i0 v color hik _ _ _ _ _ _
    have hempty : ((Finset.range v.length).filter fun j =>
        i0 ≤ j ∧ ∀ j2, j2 < j → ¬ reaches A j2 j) = ∅ := by
      apply Finset.filter_false_of_mem
      intro j hj
      rw [Finset.mem_range] at hj
      intro hcon
      omega
    rw [hempty]
    simp [count_loop]
  | succ k ihk =>
    intro i0 v color hik hlemax hA hbound hsym hI1 hcolor
    have hi0 : i0 < v.length := by omega
    have hvi0 : ∃ x : Int, v[i0]? = some x := by
      rw [List.getElem?_eq_getElem hi0]
      exact ⟨_, rfl⟩
    obtain ⟨x0, hx0⟩ := hvi0
    have hrange : List.range' i0 (k + 1) = i0 :: List.range' (i0 + 1) k :=
      List.range'_succ i0 k 1
    by_cases hm : v[i0]? = some (-1)
    · -- new component root
      have hmin : ¬ ∃ j, j < i0 ∧ reaches A j i0 := (hI1 i0 hi0).mp hm
      have hall : ∀ x, reaches A i0 x → v[x]? = some (-1) := by
        intro x hx
        have hxL : x < v.length := reaches_bounded A v.length hbound hi0 hx
        by_contra hnx
        have hex : ∃ j, j < i0 ∧ reaches A j x := by
          by_contra hnex
          exact hnx ((hI1 x hxL).mpr hnex)
        obtain ⟨j, hj, hjx⟩ := hex
        exact hmin ⟨j, hj,
          Relation.ReflTransGen.trans hjx (reaches_symm A hsym hx)⟩
      have hreach_iff : ∀ p, reach_through A v i0 p ↔ reaches A i0 p :=
        fun p => ⟨reach_through_to_reaches A v,
          reach_through_of_reaches A v hall⟩
      have hcard : (unv v).card < g.max_nodes + 1 := by
        have := unv_card_le v
        omega
      obtain ⟨v2, hmc, hlen2, hmark2, hframe2⟩ :=
        (mark_spec g A (g.max_nodes + 1)).1 i0 v color hA hbound hm
          (by omega) hcard
      have hI1' : ∀ p, p < v2.length →
          (v2[p]? = some (-1) ↔ ¬ ∃ j, j < i0 + 1 ∧ reaches A j p) := by
        intro p hp
        rw [hlen2] at hp
        constructor
        · intro hv2p
          rintro ⟨j, hj, hjr⟩
          by_cases hji : j = i0
          · subst hji
            rw [hmark2 p ((hreach_iff p).mpr hjr)] at hv2p
            have : color = -1 := Option.some_inj.mp hv2p
            omega
          · have hji0 : j < i0 := by omega
            have hnr : ¬ reach_through A v i0 p := by
              intro hr
              exact hmin ⟨j, hji0, Relation.ReflTransGen.trans hjr
                (reaches_symm A hsym ((hreach_iff p).mp hr))⟩
            rw [hframe2 p hnr] at hv2p
            exact ((hI1 p hp).mp hv2p) ⟨j, hji0, hjr⟩
        · intro hnex
          have hnr : ¬ reach_through A v i0 p := by
            intro hr
            exact hnex ⟨i0, by omega, (hreach_iff p).mp hr⟩
          rw [hframe2 p hnr]
          apply (hI1 p hp).mpr
          rintro ⟨j, hj, hjr⟩
          exact hnex ⟨j, by omega, hjr⟩
      have hres := ihk (i0 + 1) v2 (color + 1)
        (by rw [hlen2]; omega)
        (by rw [hlen2]; exact hlemax)
        (by rw [hlen2]; exact hA)
        (by rw [hlen2]; exact hbound)
        hsym hI1' (by omega)
      have hmain : count_loop g (List.range' i0 (k + 1)) v color =
          count_loop g (List.range' (i0 + 1) k) v2 (color + 1) := by
        rw [hrange]
        simp only [count_loop, hm, hmc]
        simp
      rw [hmain, hres, hlen2]
      have hsetstep : ((Finset.range v.length).filter fun j =>
          i0 ≤ j ∧ ∀ j2, j2 < j → ¬ reaches A j2 j) =
          insert i0 ((Finset.range v.length).filter fun j =>
            i0 + 1 ≤ j ∧ ∀ j2, j2 < j → ¬ reaches A j2 j) := by
        ext j
        simp only [Finset.mem_filter, Finset.mem_insert, Finset.mem_range]
        constructor
        · rintro ⟨hjL, hj0, hjm⟩
          by_cases hji : j = i0
          · exact Or.inl hji
          · exact Or.inr ⟨hjL, by omega, hjm⟩
        · rintro (rfl | ⟨hjL, hj0, hjm⟩)
          · refine ⟨hi0, Nat.le_refl _, ?_⟩
            intro j2 hj2 hr
            exact hmin ⟨j2, hj2, hr⟩
          · exact ⟨hjL, by omega, hjm⟩
      have hnotmem : i0 ∉ ((Finset.range v.length).filter fun j =>
          i0 + 1 ≤ j ∧ ∀ j2, j2 < j → ¬ reaches A j2 j) := by
        rw [Finset.mem_filter]
        rintro ⟨_, hcon, _⟩
        omega
      rw [hsetstep, Finset.card_insert_of_not_mem hnotmem]
      refine congrArg some ?_
      push_cast
      omega
    · -- already-labelled node: skipped, not a minimal representative
      have hx0ne : x0 ≠ -1 := by
        intro hh
        rw [hh] at hx0
        exact hm hx0
      have hex : ∃ j, j < i0 ∧ reaches A j i0 := by
        by_contra hnex
        exact hm ((hI1 i0 hi0).mpr hnex)
      have hI1' : ∀ p, p < v.length →
          (v[p]? = some (-1) ↔ ¬ ∃ j, j < i0 + 1 ∧ reaches A j p) := by
        intro p hp
        constructor
        · intro hvp
          rintro ⟨j, hj, hjr⟩
          by_cases hji : j = i0
          · subst hji
            obtain ⟨j2, hj2, hj2r⟩ := hex
            exact ((hI1 p hp).mp hvp)
              ⟨j2, hj2, Relation.ReflTransGen.trans hj2r hjr⟩
          · exact ((hI1 p hp).mp hvp) ⟨j, by omega, hjr⟩
        · intro hnex2
          apply (hI1 p hp).mpr
          rintro ⟨j, hj, hjr⟩
          exact hnex2 ⟨j, by omega, hjr⟩
      have hres := ihk (i0 + 1) v color (by omega) hlemax hA hbound hsym
        hI1' hcolor
      have hmain : count_loop g (List.range' i0 (k + 1)) v color =
          count_loop g (List.range' (i0 + 1) k) v color := by
        rw [hrange]
        simp [count_loop, hx0, hx0ne]
      rw [hmain, hres]
      have hseteq : ((Finset.range v.length).filter fun j =>
          i0 ≤ j ∧ ∀ j2, j2 < j → ¬ reaches A j2 j) =
          ((Finset.range v.length).filter fun j =>
            i0 + 1 ≤ j ∧ ∀ j2, j2 < j → ¬ reaches A j2 j) := by
        ext j
        simp only [Finset.mem_filter, Finset.mem_range]
        constructor
        · rintro ⟨hjL, hj0, hjm⟩
          by_cases hji : j = i0
          · subst hji
            obtain ⟨j2, hj2, hj2r⟩ := hex
            exact absurd hj2r (hjm j2 hj2)
          · exact ⟨hjL, by omega, hjm⟩
        · rintro ⟨hjL, hj0, hjm⟩
          exact ⟨hjL, by omega, hjm⟩
      rw [hseteq]

open scoped Classical in
/-- `count_connected` returns the number of scan-minimal component
representatives: one color per node not reachable from any smaller node. -/
theorem count_connected_spec (g : graph_raw) (A : Nat → List Nat)
    (hused : g.used_nodes = g.max_nodes)
    (hA : has_adj g g.max_nodes A)
    (hbound : ∀ i, i < g.max_nodes → ∀ d ∈ A i, d < g.max_nodes)
    (hsym : ∀ x y : Nat, y ∈ A x → x ∈ A y) :
    count_connected g =
      some ((((Finset.range g.max_nodes).filter fun j =>
        ∀ j2, j2 < j → ¬ reaches A j2 j).card : Nat) : Int) := by
  have hlenrep : (List.replicate g.max_nodes (-1 : Int)).length = g.max_nodes :=
    List.length_replicate _ _
  have hI0 : ∀ p, p < (List.replicate g.max_nodes (-1 : Int)).length →
      ((List.replicate g.max_nodes (-1 : Int))[p]? = some (-1) ↔
        ¬ ∃ j, j < 0 ∧ reaches A j p) := by
    intro p hp
    rw [hlenrep] at hp
    constructor
    · rintro _ ⟨j, hj, _⟩
      omega
    · intro _
      rw [List.getElem?_replicate]
      rw [if_pos hp]
  have hspec := count_loop_spec g A g.max_nodes 0
    (List.replicate g.max_nodes (-1)) 0
    (by rw [hlenrep]; omega)
    (by rw [hlenrep])
    (by rw [hlenrep]; exact hA)
    (by rw [hlenrep]; exact hbound)
    hsym hI0 (Int.le_refl 0)
  unfold count_connected
  rw [show g.get_num_nodes = g.max_nodes from hused]
  rw [List.range_eq_range']
  rw [hspec, hlenrep]
  have hfe : ((Finset.range g.max_nodes).filter fun j =>
      0 ≤ j ∧ ∀ j2, j2 < j → ¬ reaches A j2 j) =
      ((Finset.range g.max_nodes).filter fun j =>
        ∀ j2, j2 < j → ¬ reaches A j2 j) := by
    apply Finset.filter_congr
    intro j _
    simp
  rw [hfe]
  simp

/-! ## From scan-minimal representatives to connected components -/

theorem dup_adj_mem (N : Nat) (pairs : List (Nat × Nat))
    (hb : ∀ p ∈ pairs, p.1 < N ∧ p.2 < N) (x y : Nat) :
    y ∈ adj_of (dup_of pairs (List.range N)) x ↔
      ((x, y) ∈ pairs ∨ (y, x) ∈ pairs) := by
  rw [mem_adj_of, mem_dup_of_range N pairs hb]

theorem dup_adj_symm (N : Nat) (pairs : List (Nat × Nat))
    (hb : ∀ p ∈ pairs, p.1 < N ∧ p.2 < N) :
    ∀ x y : Nat, y ∈ adj_of (dup_of pairs (List.range N)) x →
      x ∈ adj_of (dup_of pairs (List.range N)) y := by
  intro x y h
  rw [dup_adj_mem N pairs hb] at h ⊢
  exact h.symm

theorem dup_adj_bounded (N : Nat) (pairs : List (Nat × Nat))
    (hb : ∀ p ∈ pairs, p.1 < N ∧ p.2 < N) :
    ∀ x, ∀ y ∈ adj_of (dup_of pairs (List.range N)) x, y < N := by
  intro x y h
  cases (dup_adj_mem N pairs hb x y).mp h with
  | inl hh => exact (hb _ hh).2
  | inr hh => exact (hb _ hh).1

/-- Reachability along the symmetrized adjacency lists is exactly
reachability in the specification graph. -/
theorem reaches_iff_reachable (N : Nat) (pairs : List (Nat × Nat))
    (hb : ∀ p ∈ pairs, p.1 < N ∧ p.2 < N) (a b : Nat) (ha : a < N)
    (hbN : b < N) :
    reaches (adj_of (dup_of pairs (List.range N))) a b ↔
      (spec_graph N pairs).Reachable ⟨a, ha⟩ ⟨b, hbN⟩ := by
  constructor
  · intro h
    revert hbN
    induction h with
    | refl => intro _; exact SimpleGraph.Reachable.refl _
    | tail hab hstep ih =>
      rename_i m c
      intro hc
      have hmem := (dup_adj_mem N pairs hb m c).mp hstep
      have hmN : m < N := by
        cases hmem with
        | inl hh => exact (hb _ hh).1
        | inr hh => exact (hb _ hh).2
      have hrm := ih hmN
      by_cases hmc : m = c
      · subst hmc
        exact hrm
      · have hadj : (spec_graph N pairs).Adj ⟨m, hmN⟩ ⟨c, hc⟩ :=
          ⟨fun hf => hmc (congrArg Fin.val hf), hmem⟩
        exact hrm.trans hadj.reachable
  · intro h
    rw [SimpleGraph.reachable_iff_reflTransGen] at h
    have hgen : ∀ x y : Fin N,
        Relation.ReflTransGen (spec_graph N pairs).Adj x y →
        reaches (adj_of (dup_of pairs (List.range N))) x.val y.val := by
      intro x y hxy
      induction hxy with
      | refl => exact Relation.ReflTransGen.refl
      | tail hab hstep ih =>
        refine Relation.ReflTransGen.tail ih ?_
        show _ ∈ adj_of (dup_of pairs (List.range N)) _
        rw [dup_adj_mem N pairs hb]
        exact hstep.2
    exact hgen ⟨a, ha⟩ ⟨b, hbN⟩ h

open scoped Classical in
/-- Each connected component has exactly one scan-minimal representative,
so the color counter equals the number of connected components. -/
theorem min_reps_card (N : Nat) (pairs : List (Nat × Nat))
    (hb : ∀ p ∈ pairs, p.1 < N ∧ p.2 < N) :
    ((Finset.range N).filter fun j =>
      ∀ j2, j2 < j → ¬ reaches (adj_of (dup_of pairs (List.range N))) j2 j).card =
      number_of_components N pairs := by
  rw [show number_of_components N pairs =
    (Finset.univ : Finset (spec_graph N pairs).ConnectedComponent).card from rfl]
  apply Finset.card_bij (fun a ha => (spec_graph N pairs).connectedComponentMk
    ⟨a, Finset.mem_range.mp (Finset.mem_filter.mp ha).1⟩)
  · intro a ha
    exact Finset.mem_univ _
  · intro a1 ha1 a2 ha2 heq
    have hm1 := Finset.mem_filter.mp ha1
    have hm2 := Finset.mem_filter.mp ha2
    have hr : (spec_graph N pairs).Reachable
        ⟨a1, Finset.mem_range.mp hm1.1⟩ ⟨a2, Finset.mem_range.mp hm2.1⟩ :=
      (SimpleGraph.ConnectedComponent.eq).mp heq
    have hre : reaches (adj_of (dup_of pairs (List.range N))) a1 a2 :=
      (reaches_iff_reachable N pairs hb a1 a2 _ _).mpr hr
    by_contra hne
    rcases Nat.lt_or_ge a1 a2 with hlt | hge
    · exact hm2.2 a1 hlt hre
    · have hlt : a2 < a1 := by omega
      exact hm1.2 a2 hlt
        (reaches_symm _ (dup_adj_symm N pairs hb) hre)
  · intro c _
    obtain ⟨v, hv⟩ := Quot.exists_rep c
    have hPv : reaches (adj_of (dup_of pairs (List.range N))) v.val v.val :=
      Relation.ReflTransGen.refl
    have hPex : ∃ j, reaches (adj_of (dup_of pairs (List.range N))) j v.val :=
      ⟨v.val, hPv⟩
    have hmspec := Nat.find_spec hPex
    have hmle : Nat.find hPex ≤ v.val := Nat.find_min' hPex hPv
    have hmN : Nat.find hPex < N := Nat.lt_of_le_of_lt hmle v.isLt
    have hmmin : ∀ j2, j2 < Nat.find hPex →
        ¬ reaches (adj_of (dup_of pairs (List.range N))) j2 (Nat.find hPex) := by
      intro j2 hj2 hr
      exact Nat.find_min hPex hj2 (Relation.ReflTransGen.trans hr hmspec)
    have hmem : Nat.find hPex ∈ (Finset.range N).filter fun j =>
        ∀ j2, j2 < j → ¬ reaches (adj_of (dup_of pairs (List.range N))) j2 j :=
      Finset.mem_filter.mpr ⟨Finset.mem_range.mpr hmN, hmmin⟩
    refine ⟨Nat.find hPex, hmem, ?_⟩
    have hreach : (spec_graph N pairs).Reachable ⟨Nat.find hPex, hmN⟩ v := by
      have := (reaches_iff_reachable N pairs hb (Nat.find hPex) v.val
        hmN v.isLt).mp hmspec
      exact this
    rw [← hv]
    exact SimpleGraph.ConnectedComponent.sound hreach

/-- Core pipeline correctness: on a well-formed text the program's value
chain `read_graph` → `double_up_edges` → `count_connected` produces exactly
the number of connected components of the specification graph. -/
theorem connected_subgraphs_eq (text : List Char) (N : Nat)
    (pairs : List (Nat × Nat)) (h : well_formed text N pairs) :
    connected_subgraphs text =
      some ((number_of_components N pairs : Nat) : Int) := by
  classical
  obtain ⟨hrg, hmgn, hmge⟩ := read_graph_eq text N pairs h
  have hb : ∀ p ∈ pairs, p.1 < N ∧ p.2 < N := h.2.2.2.2
  have hsrc : ∀ p ∈ pairs, p.1 < N := fun p hp => (hb p hp).1
  have hdup := double_up_edges_eq N (2 * pairs.length + 1) N pairs
    (Nat.le_refl N)
    (fun i _ d hd => (hb (i, d) ((mem_adj_of pairs i d).mp hd)).2)
    (by rw [dup_of_range_length N pairs hsrc]; omega)
  have hcount := count_connected_spec
    (built_graph N (2 * pairs.length + 1) N (dup_of pairs (List.range N)))
    (adj_of (dup_of pairs (List.range N)))
    rfl
    (built_graph_has_adj N (2 * pairs.length + 1) N N
      (dup_of pairs (List.range N)) (Nat.le_refl N))
    (fun i _ d hd => dup_adj_bounded N pairs hb i d hd)
    (dup_adj_symm N pairs hb)
  have hcount' : count_connected (built_graph N (2 * pairs.length + 1) N
      (dup_of pairs (List.range N))) =
      some ((((Finset.range N).filter fun j => ∀ j2, j2 < j →
        ¬ reaches (adj_of (dup_of pairs (List.range N))) j2 j).card : Nat) :
        Int) := hcount
  simp only [connected_subgraphs, hrg, hdup, hcount']
  rw [min_reps_card N pairs hb]

/-! ## Edge totals and multiplicities observed by traversal -/

theorem total_adj_built (maxN maxE N : Nat) (l : List (Nat × Nat)) :
    ∀ todo : List Nat, (∀ i ∈ todo, i < maxN) →
      total_adj (built_graph maxN maxE N l) todo =
        some ((todo.map fun i => (adj_of l i).length).sum) := by
  intro todo
  induction todo with
  | nil => intro _; simp [total_adj]
  | cons i rest ih =>
    intro hmem
    have hi : i < maxN := hmem i (List.mem_cons_self _ _)
    have hfe := built_graph_first_edge maxN maxE N l i hi
    have hal := built_graph_adj_list maxN maxE N l i
    have hr := ih (fun x hx => hmem x (List.mem_cons_of_mem _ hx))
    simp only [total_adj, hfe, hal, hr, List.map_cons, List.sum_cons]

/-- The number of edges reachable by traversing every used node's adjacency
list equals the number of inserted pairs. -/
theorem edge_count_built (maxN maxE N : Nat) (l : List (Nat × Nat))
    (hN : N ≤ maxN) (hsrc : ∀ p ∈ l, p.1 < N) :
    edge_count_via_traversal (built_graph maxN maxE N l) = some l.length := by
  unfold edge_count_via_traversal
  rw [show (built_graph maxN maxE N l).get_num_nodes = N from rfl]
  rw [total_adj_built maxN maxE N l (List.range N)
    (fun i hi => Nat.lt_of_lt_of_le (List.mem_range.mp hi) hN)]
  rw [sum_adj_of N l hsrc]

theorem adj_of_count (q : List (Nat × Nat)) (s t : Nat) :
    (adj_of q s).count t = q.count (s, t) := by
  induction q with
  | nil => simp [adj_of_nil]
  | cons p rest ih =>
    rw [adj_of_cons]
    by_cases hp : p.1 = s
    · rw [if_pos hp, List.count_append, ih]
      have hiff : p = (s, t) ↔ p.2 = t := by
        constructor
        · intro hh; rw [hh]
        · intro hh
          rw [show p = (p.1, p.2) from rfl, hp, hh]
      by_cases ht : p.2 = t
      · simp [List.count_cons, hiff, ht]
      · simp [List.count_cons, hiff, ht]
    · rw [if_neg hp, ih]
      have hne : ¬ p = (s, t) := fun hh => hp (by rw [hh])
      simp [List.count_cons, hne]

theorem list_sum_add (f g : Nat → Nat) :
    ∀ todo : List Nat,
      ((todo.map fun i => f i + g i).sum =
        (todo.map f).sum + (todo.map g).sum) := by
  intro todo
  induction todo with
  | nil => simp
  | cons i rest ih =>
    simp only [List.map_cons, List.sum_cons, ih]
    omega

theorem sum_single (s : Nat) (f : Nat → Nat) :
    ∀ N : Nat, ((List.range N).map fun i =>
      if i = s then f i else 0).sum = if s < N then f s else 0 := by
  intro N
  induction N with
  | zero => simp
  | succ n ih =>
    rw [List.range_succ, List.map_append, List.sum_append, ih]
    by_cases h1 : n = s
    · subst h1
      simp
    · by_cases h2 : s < n
      · rw [if_pos h2, if_pos (by omega)]
        simp [h1]
      · rw [if_neg h2, if_neg (by omega)]
        simp [h1]

theorem two_way_count (i s t : Nat) :
    ∀ ds : List Nat, (two_way i ds).count (s, t) =
      (if i = s then ds.count t else 0) +
        (if i = t then ds.count s else 0) := by
  intro ds
  induction ds with
  | nil => simp [two_way]
  | cons d rest ih =>
    have hexp : two_way i (d :: rest) = (i, d) :: (d, i) :: two_way i rest :=
      rfl
    rw [hexp, List.count_cons, List.count_cons, ih]
    by_cases his : i = s <;> by_cases hit : i = t <;>
      by_cases hds : d = s <;> by_cases hdt : d = t <;>
      simp_all [Prod.ext_iff, List.count_cons] <;> omega

theorem dup_of_count (l : List (Nat × Nat)) (s t : Nat) :
    ∀ todo : List Nat, (dup_of l todo).count (s, t) =
      ((todo.map fun i =>
        (if i = s then (adj_of l i).count t else 0) +
          (if i = t then (adj_of l i).count s else 0)).sum) := by
  intro todo
  induction todo with
  | nil => simp [dup_of]
  | cons i rest ih =>
    show (two_way i (adj_of l i) ++ dup_of l rest).count (s, t) = _
    rw [List.count_append, ih, two_way_count, List.map_cons, List.sum_cons]

theorem adj_of_nil_of_ge (N : Nat) (l : List (Nat × Nat))
    (hsrc : ∀ p ∈ l, p.1 < N) (s : Nat) (hs : N ≤ s) :
    adj_of l s = [] := by
  unfold adj_of
  rw [show l.filter (fun p => p.1 == s) = [] from ?_]
  · simp
  · rw [List.filter_eq_nil_iff]
    intro p hp
    have := hsrc p hp
    simp only [beq_iff_eq]
    omega

/-- Symmetrization inserts both directions of every original edge with
multiplicity: in the new graph the number of `t`-entries in `s`'s adjacency
list is the number of `(s, t)` insertions plus the number of `(t, s)`
insertions of the original (a self-loop is inserted twice). -/
theorem dup_adj_count (N : Nat) (l : List (Nat × Nat))
    (hsrc : ∀ p ∈ l, p.1 < N) (s t : Nat) :
    (adj_of (dup_of l (List.range N)) s).count t =
      (adj_of l s).count t + (adj_of l t).count s := by
  rw [adj_of_count, dup_of_count]
  rw [list_sum_add (fun i => if i = s then (adj_of l i).count t else 0)
    (fun i => if i = t then (adj_of l i).count s else 0) (List.range N)]
  rw [sum_single s (fun i => (adj_of l i).count t) N]
  rw [sum_single t (fun i => (adj_of l i).count s) N]
  by_cases hs : s < N
  · by_cases ht : t < N
    · rw [if_pos hs, if_pos ht]
    · rw [if_pos hs, if_neg ht,
        adj_of_nil_of_ge N l hsrc t (by omega)]
      simp
  · by_cases ht : t < N
    · rw [if_neg hs, if_pos ht,
        adj_of_nil_of_ge N l hsrc s (by omega)]
      simp
    · rw [if_neg hs, if_neg ht,
        adj_of_nil_of_ge N l hsrc s (by omega),
        adj_of_nil_of_ge N l hsrc t (by omega)]
      simp

/-! ## The claims -/

/-- C1: for every well-formed input text whose first integer is `N` and
whose remaining integers form `M` (source, destination) pairs with both
endpoints below `N`, the pipeline `read_graph` → `double_up_edges` →
`count_connected` returns a non-negative integer (a `Nat` cast) equal to
the number of connected components of the undirected closure of the
described graph. -/
theorem C1_pipeline_counts_components (text : List Char) (N : Nat)
    (pairs : List (Nat × Nat)) (h : well_formed text N pairs) :
    connected_subgraphs text =
      some ((number_of_components N pairs : Nat) : Int) :=
  connected_subgraphs_eq text N pairs h

theorem C1_witness :
    well_formed "3 0 1 1 2".toList 3 [(0, 1), (1, 2)] ∧
    connected_subgraphs "3 0 1 1 2".toList =
      some ((number_of_components 3 [(0, 1), (1, 2)] : Nat) : Int) :=
  ⟨by decide,
    C1_pipeline_counts_components "3 0 1 1 2".toList 3 [(0, 1), (1, 2)]
      (by decide)⟩

/-- C2 (counterexample): the text `"2 0 1"` describes one edge pair
(`M = 1`), yet the arena capacity `max_graph_edges` is the total word
count `3`, not `M = 1` as the claim states. -/
theorem C2_counterexample :
    well_formed "2 0 1".toList 2 [(0, 1)] ∧
    ([(0, 1)] : List (Nat × Nat)).length = 1 ∧
    max_graph_edges "2 0 1".toList ≠ 1 := by
  decide

/-- C2 (amended): the edge-arena capacity is still determined before any
parsing or allocation, but as the word count of the **entire** text, with
no division: for a well-formed text with `M` edge pairs after the node
count it equals `2 M + 1`, not `M`. -/
theorem C2_capacity_is_total_word_count (text : List Char) (N : Nat)
    (pairs : List (Nat × Nat)) (h : well_formed text N pairs) :
    max_graph_edges text = 2 * pairs.length + 1 :=
  (read_graph_eq text N pairs h).2.2

theorem C2_witness :
    well_formed "2 0 1".toList 2 [(0, 1)] ∧
    max_graph_edges "2 0 1".toList =
      2 * ([(0, 1)] : List (Nat × Nat)).length + 1 :=
  ⟨by decide,
    C2_capacity_is_total_word_count "2 0 1".toList 2 [(0, 1)] (by decide)⟩

/-- C3: on a text describing `N` nodes and `M` directed edges,
`read_graph` produces a graph with exactly `N` nodes, and the total number
of edges reachable by traversing every node's adjacency list is exactly
`M`. -/
theorem C3_read_graph_counts (text : List Char) (N : Nat)
    (pairs : List (Nat × Nat)) (h : well_formed text N pairs) :
    ∃ g, read_graph text = some g ∧ g.get_num_nodes = N ∧
      edge_count_via_traversal g = some pairs.length := by
  obtain ⟨hrg, _, _⟩ := read_graph_eq text N pairs h
  exact ⟨_, hrg, rfl,
    edge_count_built N (2 * pairs.length + 1) N pairs (Nat.le_refl N)
      (fun p hp => (h.2.2.2.2 p hp).1)⟩

theorem C3_witness :
    well_formed "4  0 1  2 3".toList 4 [(0, 1), (2, 3)] ∧
    ∃ g, read_graph "4  0 1  2 3".toList = some g ∧ g.get_num_nodes = 4 ∧
      edge_count_via_traversal g = some ([(0, 1), (2, 3)] :
        List (Nat × Nat)).length :=
  ⟨by decide,
    C3_read_graph_counts "4  0 1  2 3".toList 4 [(0, 1), (2, 3)] (by decide)⟩

/-- C4: every insertion happens at the head of the source node's list, so
traversal yields destinations in reverse insertion order: after
`add_edge s a` then `add_edge s d` on any reachable graph state, the walk
from `s` yields `d` before `a` and then the previous adjacency list, which
itself is the reversal of the source-`s` insertion sequence. -/
theorem C4_traversal_reverse_insertion (maxN maxE N : Nat)
    (l : List (Nat × Nat)) (s a d : Nat) (hs : s < maxN)
    (hcap : l.length + 2 ≤ maxE) :
    ∃ g1 g2, (built_graph maxN maxE N l).add_edge s a = some g1 ∧
      g1.add_edge s d = some g2 ∧
      g2.first_edge s = some (last_idx (l ++ [(s, a), (s, d)]) s) ∧
      g2.adj_list g2.edges.edge_memory.length
        (last_idx (l ++ [(s, a), (s, d)]) s) =
        some (d :: a :: adj_of l s) ∧
      adj_of (l ++ [(s, a), (s, d)]) s =
        (((l ++ [(s, a), (s, d)]).filter fun p => p.1 == s).map
          Prod.snd).reverse := by
  have h1 := built_graph_add_edge maxN maxE N l s a hs (by omega)
  have h2 := built_graph_add_edge maxN maxE N (l ++ [(s, a)]) s d hs
    (by simp; omega)
  have hassoc : (l ++ [(s, a)]) ++ [(s, d)] = l ++ [(s, a), (s, d)] := by
    simp
  refine ⟨built_graph maxN maxE N (l ++ [(s, a)]),
    built_graph maxN maxE N (l ++ [(s, a), (s, d)]), h1, by rw [← hassoc]; exact h2,
    ?_, ?_, rfl⟩
  · exact built_graph_first_edge maxN maxE N (l ++ [(s, a), (s, d)]) s hs
  · rw [built_graph_adj_list maxN maxE N (l ++ [(s, a), (s, d)]) s]
    rw [← hassoc, adj_of_append, if_pos rfl, adj_of_append, if_pos rfl]

theorem C4_witness :
    (0 < 2 ∧ ([] : List (Nat × Nat)).length + 2 ≤ 3) ∧
    (∃ g1 g2, (built_graph 2 3 2 []).add_edge 0 0 = some g1 ∧
      g1.add_edge 0 1 = some g2 ∧
      g2.first_edge 0 = some (last_idx ([] ++ [(0, 0), (0, 1)]) 0) ∧
      g2.adj_list g2.edges.edge_memory.length
        (last_idx ([] ++ [(0, 0), (0, 1)]) 0) =
        some (1 :: 0 :: adj_of [] 0) ∧
      adj_of ([] ++ [(0, 0), (0, 1)]) 0 =
        ((([] ++ [(0, 0), (0, 1)] : List (Nat × Nat)).filter
          fun p => p.1 == 0).map Prod.snd).reverse) :=
  ⟨⟨by decide, by decide⟩,
    C4_traversal_reverse_insertion 2 3 2 [] 0 0 1 (by decide) (by decide)⟩

/-- C5: `read_int` splits the cursor into the maximal leading
non-whitespace token, the maximal following whitespace run (whitespace
being exactly space and newline), and the rest; it returns the token's
`view_to_int` value (the `value = value * 10 + digit` accumulation, `0`
for an empty token, with `size_t` wrap-around; equal to the pure decimal
value on representable digit tokens) and advances the cursor past both the
token and the whitespace run. -/
theorem C5_read_int_contract (input : List Char) :
    ∃ tok ws rest, input = tok ++ ws ++ rest ∧
      (∀ c ∈ tok, is_ws c = false) ∧
      (∀ c ∈ ws, is_ws c = true) ∧
      (∀ c ∈ (ws ++ rest).take 1, is_ws c = true) ∧
      (∀ c ∈ rest.take 1, is_ws c = false) ∧
      read_int input = (view_to_int tok, rest) ∧
      ((∀ c ∈ tok, 48 ≤ c.toNat ∧ c.toNat ≤ 57) → dec_val tok < u64 →
        view_to_int tok = dec_val tok) := by
  refine ⟨input.takeWhile fun c => !is_ws c,
    (input.dropWhile fun c => !is_ws c).takeWhile is_ws,
    (input.dropWhile fun c => !is_ws c).dropWhile is_ws,
    ?_, ?_, ?_, ?_, ?_, ?_, ?_⟩
  · rw [List.append_assoc]
    rw [List.takeWhile_append_dropWhile is_ws
      (input.dropWhile fun c => !is_ws c)]
    rw [List.takeWhile_append_dropWhile (fun c => !is_ws c) input]
  · intro c hc
    have := List.mem_takeWhile_imp hc
    simpa using this
  · intro c hc
    exact List.mem_takeWhile_imp hc
  · rw [List.takeWhile_append_dropWhile is_ws
      (input.dropWhile fun c => !is_ws c)]
    intro c hc
    have := head_dropWhile_false (fun c => !is_ws c) input c hc
    simpa using this
  · exact head_dropWhile_false is_ws (input.dropWhile fun c => !is_ws c)
  · simp [read_int, read_non_whitespace, read_whitespace]
  · intro hdig hlt
    exact view_to_int_eq_dec_val _ hdig hlt

theorem C5_witness :
    ∃ tok ws rest, "42 43".toList = tok ++ ws ++ rest ∧
      (∀ c ∈ tok, is_ws c = false) ∧
      (∀ c ∈ ws, is_ws c = true) ∧
      (∀ c ∈ (ws ++ rest).take 1, is_ws c = true) ∧
      (∀ c ∈ rest.take 1, is_ws c = false) ∧
      read_int "42 43".toList = (view_to_int tok, rest) ∧
      ((∀ c ∈ tok, 48 ≤ c.toNat ∧ c.toNat ≤ 57) → dec_val tok < u64 →
        view_to_int tok = dec_val tok) :=
  C5_read_int_contract "42 43".toList

/-- C6: the component count is invariant to edge direction: a well-formed
text describing the pairs and a well-formed text describing the swapped
pairs produce the same pipeline output. -/
theorem C6_direction_invariance (text text2 : List Char) (N : Nat)
    (pairs : List (Nat × Nat)) (h : well_formed text N pairs)
    (h2 : well_formed text2 N (pairs.map Prod.swap)) :
    connected_subgraphs text2 = connected_subgraphs text := by
  rw [connected_subgraphs_eq text N pairs h,
    connected_subgraphs_eq text2 N (pairs.map Prod.swap) h2]
  have hswap : ∀ x y : Nat, (x, y) ∈ pairs.map Prod.swap ↔ (y, x) ∈ pairs := by
    intro x y
    rw [List.mem_map]
    constructor
    · rintro ⟨p, hp, hps⟩
      have hp' : p = (y, x) := by
        have := congrArg Prod.swap hps
        simpa using this
      rw [← hp']
      exact hp
    · intro hp
      exact ⟨(y, x), hp, rfl⟩
  have hg : spec_graph N (pairs.map Prod.swap) = spec_graph N pairs := by
    apply SimpleGraph.ext
    funext a b
    show (a ≠ b ∧ _) = (a ≠ b ∧ _)
    have : ((a.val, b.val) ∈ pairs.map Prod.swap ∨
        (b.val, a.val) ∈ pairs.map Prod.swap) ↔
        ((a.val, b.val) ∈ pairs ∨ (b.val, a.val) ∈ pairs) := by
      rw [hswap, hswap]
      exact Or.comm
    rw [eq_iff_iff]
    constructor
    · rintro ⟨hne, hm⟩
      exact ⟨hne, this.mp hm⟩
    · rintro ⟨hne, hm⟩
      exact ⟨hne, this.mpr hm⟩
  have hcomp : number_of_components N (pairs.map Prod.swap) =
      number_of_components N pairs := by
    unfold number_of_components
    exact Fintype.card_congr (Equiv.cast (by rw [hg]))
  rw [hcomp]

theorem C6_witness :
    well_formed "3 0 1 1 2".toList 3 [(0, 1), (1, 2)] ∧
    well_formed "3 1 0 2 1".toList 3
      (([(0, 1), (1, 2)] : List (Nat × Nat)).map Prod.swap) ∧
    connected_subgraphs "3 1 0 2 1".toList =
      connected_subgraphs "3 0 1 1 2".toList :=
  ⟨by decide, by decide,
    C6_direction_invariance "3 0 1 1 2".toList "3 1 0 2 1".toList 3
      [(0, 1), (1, 2)] (by decide) (by decide)⟩

/-- C7: `double_up_edges` builds and returns a new graph value (the
closed-form graph built from scratch over the doubled pair list) with the
same node count, inserting both `(s → d)` and `(d → s)` for every edge of
the original — with multiplicity, so a self-loop is inserted twice.  The
input graph is passed by constant value and only read; in this pure
embedding its pre-state appears unchanged on both sides of the theorem,
and no operation of the embedding mutates a `graph_raw`. -/
theorem C7_symmetrization_fresh (maxN maxE N : Nat) (l : List (Nat × Nat))
    (hN : N ≤ maxN)
    (hdst : ∀ i, i < N → ∀ d ∈ adj_of l i, d < N)
    (hsrc : ∀ p ∈ l, p.1 < N)
    (hcap : (dup_of l (List.range N)).length ≤ maxE) :
    ∃ ng, double_up_edges (built_graph maxN maxE N l) = some ng ∧
      ng.get_num_nodes = (built_graph maxN maxE N l).get_num_nodes ∧
      ng = built_graph maxN maxE N (dup_of l (List.range N)) ∧
      edge_count_via_traversal ng = some (2 * l.length) ∧
      (∀ s t : Nat, (adj_of (dup_of l (List.range N)) s).count t =
        (adj_of l s).count t + (adj_of l t).count s) := by
  have hdup := double_up_edges_eq maxN maxE N l hN
    (fun i hi d hd => Nat.lt_of_lt_of_le (hdst i hi d hd) hN) hcap
  have hDsrc : ∀ p ∈ dup_of l (List.range N), p.1 < N := by
    intro p hp
    obtain ⟨x, y⟩ := p
    rw [mem_dup_of] at hp
    obtain ⟨i, hi, hcase⟩ := hp
    rw [List.mem_range] at hi
    cases hcase with
    | inl hh => exact hh.1 ▸ hi
    | inr hh => exact hdst i hi x hh.2
  refine ⟨built_graph maxN maxE N (dup_of l (List.range N)), hdup, rfl, rfl,
    ?_, ?_⟩
  · rw [edge_count_built maxN maxE N (dup_of l (List.range N)) hN hDsrc]
    rw [dup_of_range_length N l hsrc]
  · exact dup_adj_count N l hsrc

theorem C7_witness :
    (2 ≤ 2 ∧ (∀ i, i < 2 → ∀ d ∈ adj_of [(0, 1)] i, d < 2) ∧
      (∀ p ∈ ([(0, 1)] : List (Nat × Nat)), p.1 < 2) ∧
      (dup_of [(0, 1)] (List.range 2)).length ≤ 5) ∧
    (∃ ng, double_up_edges (built_graph 2 5 2 [(0, 1)]) = some ng ∧
      ng.get_num_nodes = (built_graph 2 5 2 [(0, 1)]).get_num_nodes ∧
      ng = built_graph 2 5 2 (dup_of [(0, 1)] (List.range 2)) ∧
      edge_count_via_traversal ng =
        some (2 * ([(0, 1)] : List (Nat × Nat)).length) ∧
      (∀ s t : Nat, (adj_of (dup_of [(0, 1)] (List.range 2)) s).count t =
        (adj_of [(0, 1)] s).count t + (adj_of [(0, 1)] t).count s)) :=
  ⟨⟨by decide, by decide, by decide, by decide⟩,
    C7_symmetrization_fresh 2 5 2 [(0, 1)] (by decide) (by decide)
      (by decide) (by decide)⟩

/-- C8: the arena invariant `next_available ≤ max_edges` holds after every
attempted allocation: a successful allocation preserves it (and writes in
bounds, at the old `next_available`), and an allocation at capacity is a
fatal failure (`none`, the bounds-checked `at` throw) rather than a silent
write. -/
theorem C8_arena_invariant (s : edge_storage_t) (node : Nat)
    (next : Option Nat) (hinv : s.edge_memory.length ≤ s.max_edges) :
    (∀ s2 idx, s.alloc_edge node next = some (s2, idx) →
      s2.edge_memory.length ≤ s2.max_edges ∧ s2.max_edges = s.max_edges ∧
      s2.edge_memory.length = s.edge_memory.length + 1 ∧
      idx = s.edge_memory.length ∧ idx < s.max_edges) ∧
    (s.edge_memory.length = s.max_edges → s.alloc_edge node next = none) := by
  constructor
  · intro s2 idx halloc
    unfold edge_storage_t.alloc_edge at halloc
    by_cases hlt : s.edge_memory.length < s.max_edges
    · rw [if_pos hlt] at halloc
      obtain ⟨hs2, hidx⟩ := Prod.mk.injEq .. ▸ Option.some_inj.mp halloc
      refine ⟨?_, ?_, ?_, hidx.symm, by omega⟩
      · rw [← hs2]
        simp
        omega
      · rw [← hs2]
      · rw [← hs2]
        simp
    · rw [if_neg hlt] at halloc
      exact absurd halloc (by simp)
  · intro heq
    unfold edge_storage_t.alloc_edge
    rw [if_neg (by omega)]

theorem C8_witness :
    (edge_storage_t.mk 1 []).edge_memory.length ≤
      (edge_storage_t.mk 1 []).max_edges ∧
    ((∀ s2 idx, (edge_storage_t.mk 1 []).alloc_edge 0 none =
        some (s2, idx) →
      s2.edge_memory.length ≤ s2.max_edges ∧
      s2.max_edges = (edge_storage_t.mk 1 []).max_edges ∧
      s2.edge_memory.length =
        (edge_storage_t.mk 1 []).edge_memory.length + 1 ∧
      idx = (edge_storage_t.mk 1 []).edge_memory.length ∧
      idx < (edge_storage_t.mk 1 []).max_edges) ∧
    ((edge_storage_t.mk 1 []).edge_memory.length =
        (edge_storage_t.mk 1 []).max_edges →
      (edge_storage_t.mk 1 []).alloc_edge 0 none = none)) :=
  ⟨by decide, C8_arena_invariant (edge_storage_t.mk 1 []) 0 none (by decide)⟩

/-- C9: with the fuel `count_connected` supplies (`max_nodes + 1`, one
unit per claimed node plus one), `mark_connected` returns on every finite
graph — cycles and self-loops included, since fuel is consumed only when
an unvisited node is claimed — and each label cell either keeps its value
or transitions from unvisited (`-1`) to the current color: a node is
claimed at most once, because already-labelled neighbours are skipped. -/
theorem C9_mark_terminates_claims_once (maxN maxE N : Nat)
    (l : List (Nat × Nat)) (node : Nat) (v : List Int) (color : Int)
    (hlen : v.length = maxN)
    (hdst : ∀ i, i < maxN → ∀ d ∈ adj_of l i, d < maxN)
    (hnode : v[node]? = some (-1)) (hcolor : 0 ≤ color) :
    ∃ v2, mark_connected (built_graph maxN maxE N l)
        ((built_graph maxN maxE N l).max_nodes + 1) node v color =
        some v2 ∧
      v2.length = v.length ∧
      (∀ p : Nat, v2[p]? = v[p]? ∨
        (v[p]? = some (-1) ∧ v2[p]? = some color)) := by
  have hcard : (unv v).card < maxN + 1 := by
    have := unv_card_le v
    omega
  obtain ⟨v2, hmc, hlen2, hmark, hframe⟩ :=
    (mark_spec (built_graph maxN maxE N l) (adj_of l) (maxN + 1)).1 node v
      color
      (by rw [hlen]
          exact built_graph_has_adj maxN maxE N maxN l (Nat.le_refl maxN))
      (by rw [hlen]; exact hdst)
      hnode (by omega) hcard
  refine ⟨v2, hmc, hlen2, ?_⟩
  intro p
  by_cases hr : reach_through (adj_of l) v node p
  · right
    refine ⟨?_, hmark p hr⟩
    cases Relation.ReflTransGen.cases_tail hr with
    | inl hpn => rw [hpn]; exact hnode
    | inr hh =>
      obtain ⟨m, _, hstep⟩ := hh
      exact hstep.2
  · left
    exact hframe p hr

theorem C9_witness :
    (([(-1 : Int)] : List Int).length = 1 ∧
      (∀ i, i < 1 → ∀ d ∈ adj_of [(0, 0)] i, d < 1) ∧
      ([(-1 : Int)] : List Int)[0]? = some (-1) ∧ (0 : Int) ≤ 0) ∧
    (∃ v2, mark_connected (built_graph 1 1 1 [(0, 0)])
        ((built_graph 1 1 1 [(0, 0)]).max_nodes + 1) 0 [(-1 : Int)] 0 =
        some v2 ∧
      v2.length = ([(-1 : Int)] : List Int).length ∧
      (∀ p : Nat, v2[p]? = ([(-1 : Int)] : List Int)[p]? ∨
        (([(-1 : Int)] : List Int)[p]? = some (-1) ∧
          v2[p]? = some (0 : Int)))) :=
  ⟨⟨by decide, by decide, by decide, by decide⟩,
    C9_mark_terminates_claims_once 1 1 1 [(0, 0)] 0 [(-1 : Int)] 0
      (by decide) (by decide) (by decide) (by decide)⟩

/-- C10: on well-formed input, graph construction and symmetrization
succeed outright — every arena allocation and node access is in bounds, so
none of the fatal out-of-range branches of `alloc_edge`, `get_edge` and
`add_edge` (which would propagate as `none`) is taken: `read_graph` fills
`M` of the `count_words text` arena slots and `double_up_edges` fills
`2 M` of its own, both within capacity. -/
theorem C10_construction_within_capacity (text : List Char) (N : Nat)
    (pairs : List (Nat × Nat)) (h : well_formed text N pairs) :
    ∃ g bg, read_graph text = some g ∧ double_up_edges g = some bg ∧
      g.edges.max_edges = max_graph_edges text ∧
      bg.edges.max_edges = max_graph_edges text ∧
      g.edges.edge_memory.length = pairs.length ∧
      bg.edges.edge_memory.length = 2 * pairs.length ∧
      pairs.length ≤ max_graph_edges text ∧
      2 * pairs.length ≤ max_graph_edges text ∧
      g.nodes.length = max_graph_nodes text ∧
      (∀ p ∈ pairs, p.1 < g.nodes.length) := by
  obtain ⟨hrg, hmgn, hmge⟩ := read_graph_eq text N pairs h
  have hb : ∀ p ∈ pairs, p.1 < N ∧ p.2 < N := h.2.2.2.2
  have hsrc : ∀ p ∈ pairs, p.1 < N := fun p hp => (hb p hp).1
  have hdup := double_up_edges_eq N (2 * pairs.length + 1) N pairs
    (Nat.le_refl N)
    (fun i _ d hd => (hb (i, d) ((mem_adj_of pairs i d).mp hd)).2)
    (by rw [dup_of_range_length N pairs hsrc]; omega)
  refine ⟨built_graph N (2 * pairs.length + 1) N pairs,
    built_graph N (2 * pairs.length + 1) N (dup_of pairs (List.range N)),
    hrg, hdup, ?_, ?_, ?_, ?_, ?_, ?_, ?_, ?_⟩
  · show 2 * pairs.length + 1 = max_graph_edges text
    rw [hmge]
  · show 2 * pairs.length + 1 = max_graph_edges text
    rw [hmge]
  · show (edges_of pairs).length = pairs.length
    exact edges_of_length pairs
  · show (edges_of (dup_of pairs (List.range N))).length = 2 * pairs.length
    rw [edges_of_length, dup_of_range_length N pairs hsrc]
  · rw [hmge]
    omega
  · rw [hmge]
    omega
  · show ((List.range N).map _).length = max_graph_nodes text
    rw [List.length_map, List.length_range, hmgn]
  · intro p hp
    show p.1 < ((List.range N).map _).length
    rw [List.length_map, List.length_range]
    exact hsrc p hp

theorem C10_witness :
    well_formed "4  0 1  2 3".toList 4 [(0, 1), (2, 3)] ∧
    (∃ g bg, read_graph "4  0 1  2 3".toList = some g ∧
      double_up_edges g = some bg ∧
      g.edges.max_edges = max_graph_edges "4  0 1  2 3".toList ∧
      bg.edges.max_edges = max_graph_edges "4  0 1  2 3".toList ∧
      g.edges.edge_memory.length =
        ([(0, 1), (2, 3)] : List (Nat × Nat)).length ∧
      bg.edges.edge_memory.length =
        2 * ([(0, 1), (2, 3)] : List (Nat × Nat)).length ∧
      ([(0, 1), (2, 3)] : List (Nat × Nat)).length ≤
        max_graph_edges "4  0 1  2 3".toList ∧
      2 * ([(0, 1), (2, 3)] : List (Nat × Nat)).length ≤
        max_graph_edges "4  0 1  2 3".toList ∧
      g.nodes.length = max_graph_nodes "4  0 1  2 3".toList ∧
      (∀ p ∈ ([(0, 1), (2, 3)] : List (Nat × Nat)),
        p.1 < g.nodes.length)) :=
  ⟨by decide,
    C10_construction_within_capacity "4  0 1  2 3".toList 4 [(0, 1), (2, 3)]
      (by decide)⟩

end ConnComp
